/-
Verification of the 2048 board engine, heuristic model, lookahead search,
DQN agent and training loop of the jEnbuska/2048 repository.

The TypeScript sources are shallowly embedded:
  * `Cell` mirrors `types.ts` (`Coordinate & CellValues`); JavaScript numbers
    holding integer data (coordinates, ids, tile values, scores) become `Int`,
    and real-valued heuristic arithmetic becomes `Rat` (all quantities the
    heuristics compute on power-of-two boards are rational, with
    `Math.log2` of a power of two being its exponent).
  * `consumedBy?: number` becomes `Option Int`; JavaScript truthiness of
    `!consumedBy` (which also treats a stored id `0` as "not consumed") is
    modelled by `jsFalsy`.
  * `tilt` accepts `Coordinate<-1|0|1>` in TypeScript but is only ever called
    with the four unit vectors produced by `get2DVectorByTiltDirection`; the
    embedding restricts the argument to those four vectors (`UnitVec`), which
    also makes the `clearSlack` slide recursion well founded.
  * `Array.prototype.sort` (stable) is modelled by a stable insertion sort
    over the JavaScript comparator.
-/
import Mathlib

namespace Game2048

/-! ### Data model (`src/types.ts`, `src/utils/constants.ts`) -/

/-- `Coordinate` from `types.ts`. -/
structure Coordinate where
  x : Int
  y : Int
deriving DecidableEq, Repr

/-- `Cell = Coordinate & CellValues` from `types.ts`. -/
structure Cell where
  id : Int
  x : Int
  y : Int
  value : Int
  consumedBy : Option Int := none
deriving DecidableEq, Repr

/-- `GRID_SIZE` from `constants.ts`. -/
def GRID_SIZE : Int := 4

/-- JavaScript truthiness of `consumedBy`: `!consumedBy` is true when the
field is `undefined` and also when it holds the number `0`. -/
def jsFalsy : Option Int → Bool
  | none => true
  | some v => v == 0

/-- A cell that the code's `!cell.consumedBy` checks treat as still on the
board (a non-ghost). -/
def Cell.isActive (c : Cell) : Bool := jsFalsy c.consumedBy

/-- The position of a cell. -/
def Cell.pos (c : Cell) : Coordinate := ⟨c.x, c.y⟩

/-- The four tilt vectors actually passed to `tilt`
(`get2DVectorByTiltDirection`): exactly one component is non-zero and
it is `1` or `-1`. -/
structure UnitVec where
  x : Int
  y : Int
  unit : (y = 0 ∧ (x = 1 ∨ x = -1)) ∨ (x = 0 ∧ (y = 1 ∨ y = -1))

/-- `TiltDirection` from `types.ts`. -/
inductive TiltDirection where
  | Up
  | Down
  | Left
  | Right
deriving DecidableEq, Repr

/-- `get2DVectorByTiltDirection` from `utils/getVectorByTiltDirection.ts`. -/
def get2DVectorByTiltDirection : TiltDirection → UnitVec
  | TiltDirection.Left => ⟨-1, 0, Or.inl ⟨rfl, Or.inr rfl⟩⟩
  | TiltDirection.Right => ⟨1, 0, Or.inl ⟨rfl, Or.inl rfl⟩⟩
  | TiltDirection.Up => ⟨0, -1, Or.inr ⟨rfl, Or.inr rfl⟩⟩
  | TiltDirection.Down => ⟨0, 1, Or.inr ⟨rfl, Or.inl rfl⟩⟩

/-! ### `utils/getNonConsumedCell.ts` and `utils/addCoordinates.ts` -/

/-- `getNonConsumedCell(cells, coordinates)`: the first cell at the given
coordinates whose `consumedBy` is falsy. -/
def getNonConsumedCell (cells : List Cell) (p : Coordinate) : Option Cell :=
  cells.find? fun c => c.x == p.x && c.y == p.y && jsFalsy c.consumedBy

/-- `addCoordinates` applied to a cell and a tilt vector (the only use the
board engine makes of it). -/
def addCoordinates (c : Cell) (v : UnitVec) : Coordinate :=
  ⟨c.x + v.x, c.y + v.y⟩

/-! ### `utils/compareFromVector.ts` and the `slice().sort(...)` call -/

/-- `compareFromVector(vector)` with the default `"asc"` direction
(multiplier `-1`), as used by `tilt`. -/
def compareFromVector (v : UnitVec) (a b : Cell) : Int :=
  ((a.y - b.y) * v.y + (a.x - b.x) * v.x) * (-1)

/-- Insert into a sorted prefix, keeping ties in original order: this is the
ECMAScript stable-sort order for the comparator. -/
def insertByCmp (cmp : Cell → Cell → Int) (c : Cell) : List Cell → List Cell
  | [] => [c]
  | d :: ds => if cmp d c ≤ 0 then d :: insertByCmp cmp c ds else c :: d :: ds

/-- `cells.slice().sort(cmp)`: a stable sort by the JavaScript comparator. -/
def jsSort (cmp : Cell → Cell → Int) (l : List Cell) : List Cell :=
  l.foldl (fun acc c => insertByCmp cmp c acc) []

/-! ### `utils/clearSlack.ts` -/

/-- The stopping condition of the `clearSlack` slide loop at the destination
square `(x, y)`: out of the grid, or occupied by a non-consumed cell. -/
def slideBlocked (cells : List Cell) (x y : Int) : Bool :=
  y < 0 || x < 0 || GRID_SIZE ≤ y || GRID_SIZE ≤ x ||
    (getNonConsumedCell cells ⟨x, y⟩).isSome

/-- The projection of a cell's position on the tilt vector; it increases by
one with every slide step, which bounds the `clearSlack` recursion. -/
def slideMeasure (v : UnitVec) (c : Cell) : Nat :=
  (2 * GRID_SIZE - (c.x * v.x + c.y * v.y)).toNat

/-- The slide loop inside `clearSlack`, implemented by structural recursion
on a fuel equal to its (proved-below) termination measure so that the
definition evaluates in the kernel. -/
def slideAux (v : UnitVec) (cells : List Cell) : Nat → Cell → Cell
  | 0, cell => cell
  | fuel + 1, cell =>
    let x := cell.x + v.x
    let y := cell.y + v.y
    if slideBlocked cells x y then cell
    else slideAux v cells fuel { cell with x := x, y := y }

/-- The slide loop inside `clearSlack`: repeatedly step by the tilt vector
while the destination is in bounds and holds no non-consumed cell.  The
final `cells.map` of `clearSlack` is split off below; the recursive
equation satisfied by this definition is `slide_eq`. -/
def slide (v : UnitVec) (cells : List Cell) (cell : Cell) : Cell :=
  slideAux v cells (slideMeasure v cell) cell

/-- When the destination square is inside the grid, one slide step decreases
the termination measure by exactly one. -/
lemma slideMeasure_step (v : UnitVec) (cells : List Cell) (cell : Cell)
    (h : ¬ slideBlocked cells (cell.x + v.x) (cell.y + v.y)) :
    slideMeasure v { cell with x := cell.x + v.x, y := cell.y + v.y } + 1 =
      slideMeasure v cell := by
  obtain ⟨i, cx, cy, val, cb⟩ := cell
  obtain ⟨vx, vy, hunit⟩ := v
  simp only [slideBlocked, Bool.or_eq_true, decide_eq_true_eq] at h
  push_neg at h
  obtain ⟨⟨⟨⟨h1, h2⟩, h3⟩, h4⟩, -⟩ := h
  simp only [slideMeasure, GRID_SIZE] at *
  rcases hunit with ⟨hy, hx | hx⟩ | ⟨hx, hy | hy⟩ <;> subst hy <;> subst hx <;> omega

/-- When the measure is exhausted the slide is necessarily blocked. -/
lemma slideBlocked_of_measure_zero (v : UnitVec) (cells : List Cell)
    (cell : Cell) (h : slideMeasure v cell = 0) :
    slideBlocked cells (cell.x + v.x) (cell.y + v.y) = true := by
  obtain ⟨i, cx, cy, val, cb⟩ := cell
  obtain ⟨vx, vy, hunit⟩ := v
  simp only [slideMeasure, GRID_SIZE] at h
  simp only [slideBlocked, Bool.or_eq_true, decide_eq_true_eq, GRID_SIZE]
  rcases hunit with ⟨hy, hx | hx⟩ | ⟨hx, hy | hy⟩ <;> subst hy <;> subst hx <;>
    · left
      omega

/-- `slide` satisfies the recursion of `clearSlack` in `utils/clearSlack.ts`:
step to the neighbouring square while it is in bounds and free. -/
lemma slide_eq (v : UnitVec) (cells : List Cell) (cell : Cell) :
    slide v cells cell =
      if slideBlocked cells (cell.x + v.x) (cell.y + v.y) then cell
      else slide v cells { cell with x := cell.x + v.x, y := cell.y + v.y } := by
  by_cases h : slideBlocked cells (cell.x + v.x) (cell.y + v.y)
  · rw [if_pos h]
    unfold slide
    rcases hm : slideMeasure v cell with - | fuel
    · rfl
    · simp [slideAux, h]
  · rw [if_neg h]
    unfold slide
    rcases hm : slideMeasure v cell with - | fuel
    · exact absurd (slideBlocked_of_measure_zero v cells cell hm) h
    · have hstep := slideMeasure_step v cells cell h
      rw [hm] at hstep
      simp only [slideAux]
      rw [if_neg h, show fuel = slideMeasure v { cell with x := cell.x + v.x, y := cell.y + v.y } by omega]

/-- `clearSlack({cell, vector, cells})`: the slid cell replaces every list
entry carrying its id. -/
def clearSlack (v : UnitVec) (cells : List Cell) (cell : Cell) : List Cell :=
  let moved := slide v cells cell
  cells.map fun c => if c.id == cell.id then moved else c

/-! ### `consumeNeighbour` (embedded source in `utils/consmeNeighbour.test.ts`) -/

/-- `consumeNeighbour({vector, cells, cell})`. -/
def consumeNeighbour (v : UnitVec) (cells : List Cell) (cell : Cell) : List Cell :=
  if (getNonConsumedCell cells cell.pos).map Cell.id ≠ some cell.id then
    -- Consumed by another cell
    cells
  else
    let x := cell.x + v.x
    let y := cell.y + v.y
    match getNonConsumedCell cells ⟨x, y⟩ with
    | none => cells
    | some neighbour =>
      if neighbour.value ≠ cell.value then
        cells
      else
        cells.map fun c =>
          if c.id == neighbour.id then
            { c with consumedBy := some cell.id }
          else if c.id == cell.id then
            { c with value := c.value * 2, x := x, y := y }
          else c

/-! ### `tilt` (embedded source in `utils/modelStorage.ts`) -/

/-- The last step of `tilt`: sync each ghost's position with its consumer's
position for the animation.  The TypeScript non-null assertion on the
consumer lookup is total-ized by returning the ghost unchanged when the
consumer id is absent (the code would throw there). -/
def syncConsumed (cells : List Cell) : List Cell :=
  cells.map fun cell =>
    if jsFalsy cell.consumedBy then cell
    else
      match cells.find? (fun other => some other.id == cell.consumedBy) with
      | some other => { cell with x := other.x, y := other.y }
      | none => cell

/-- `tilt(vector, cells)`: sort from the far side of the tilt, close slack,
merge neighbours, close slack again and sync ghost positions onto their
consumers. -/
def tilt (v : UnitVec) (cells : List Cell) : List Cell :=
  let sorted := jsSort (compareFromVector v) cells
  let slacked := sorted.foldl (fun cells cell => clearSlack v cells cell) sorted
  let merged := slacked.foldl (fun cells cell => consumeNeighbour v cells cell) slacked
  let final := merged.foldl (fun cells cell => clearSlack v cells cell) merged
  syncConsumed final

/-! ### Board invariants

The spec's data-model invariants for a board: tile ids are pairwise distinct
and non-zero (ids are assigned from a monotone counter starting above 100;
a zero id would make the JavaScript truthiness test `!consumedBy`
misclassify a ghost), at most one non-ghost tile occupies any `(x, y)`,
every tile lies inside the 4×4 grid, and a ghost's `consumedBy` is the
non-zero id of a tile on the board. -/

/-- The cell lies inside the `GRID_SIZE × GRID_SIZE` grid. -/
def InBounds (c : Cell) : Prop :=
  0 ≤ c.x ∧ c.x < GRID_SIZE ∧ 0 ≤ c.y ∧ c.y < GRID_SIZE

instance : DecidablePred InBounds := fun c => by unfold InBounds; infer_instance

/-- At most one non-ghost cell occupies any position. -/
def ActivesDistinct (S : List Cell) : Prop :=
  ∀ c ∈ S, ∀ d ∈ S, c.isActive → d.isActive → c.x = d.x → c.y = d.y → c = d

instance : DecidablePred ActivesDistinct := fun S => by
  unfold ActivesDistinct; infer_instance

/-- Ids are pairwise distinct and non-zero. -/
def IdsOK (S : List Cell) : Prop :=
  (S.map Cell.id).Nodup ∧ ∀ c ∈ S, c.id ≠ 0

/-- Every ghost's `consumedBy` is a non-zero id of a cell on the board. -/
def GhostsOK (S : List Cell) : Prop :=
  ∀ c ∈ S, ∀ k, c.consumedBy = some k → k ≠ 0 ∧ ∃ d ∈ S, d.id = k

instance : DecidablePred GhostsOK := fun S =>
  decidable_of_iff
    (∀ c ∈ S, ∀ k ∈ c.consumedBy.toList, k ≠ 0 ∧ ∃ d ∈ S, d.id = k) (by
      unfold GhostsOK
      constructor
      · intro h c hc k hk
        exact h c hc k (by simpa [Option.mem_toList, Option.mem_def] using hk)
      · intro h c hc k hk
        exact h c hc k (by simpa [Option.mem_toList, Option.mem_def] using hk))

/-- The value carried by a cell if it is active, `0` otherwise. -/
def activeVal (c : Cell) : Int := if c.isActive then c.value else 0

/-- Total value of the non-ghost cells of a board. -/
def activeSum (S : List Cell) : Int := (S.map activeVal).sum

/-- Two cells with the same id on a board with `Nodup` ids are equal. -/
lemma eq_of_mem_of_id_eq {S : List Cell} (h : (S.map Cell.id).Nodup)
    {c d : Cell} (hc : c ∈ S) (hd : d ∈ S) (hid : c.id = d.id) : c = d :=
  List.inj_on_of_nodup_map h hc hd hid

lemma isActive_of_consumedBy_none {c : Cell} (h : c.consumedBy = none) :
    c.isActive := by simp [Cell.isActive, jsFalsy, h]

lemma not_isActive_setConsumed {c : Cell} {k : Int} (hk : k ≠ 0) :
    ¬ ({ c with consumedBy := some k } : Cell).isActive := by
  simp [Cell.isActive, jsFalsy, hk]

/-! ### Facts about `getNonConsumedCell` -/

lemma getNonConsumedCell_some {S : List Cell} {p : Coordinate} {c : Cell}
    (h : getNonConsumedCell S p = some c) :
    c ∈ S ∧ c.isActive ∧ c.x = p.x ∧ c.y = p.y := by
  have hmem := List.mem_of_find?_eq_some h
  have hp := List.find?_some h
  simp only [Bool.and_eq_true, beq_iff_eq] at hp
  exact ⟨hmem, hp.2, hp.1.1, hp.1.2⟩

lemma getNonConsumedCell_none {S : List Cell} {p : Coordinate}
    (h : getNonConsumedCell S p = none) :
    ∀ c ∈ S, c.isActive → ¬ (c.x = p.x ∧ c.y = p.y) := by
  intro c hc hact hpos
  have := List.find?_eq_none.mp h c hc
  simp only [Bool.and_eq_true, beq_iff_eq] at this
  exact this ⟨⟨hpos.1, hpos.2⟩, hact⟩

lemma getNonConsumedCell_isSome {S : List Cell} {p : Coordinate} {c : Cell}
    (hc : c ∈ S) (hact : c.isActive) (hx : c.x = p.x) (hy : c.y = p.y) :
    (getNonConsumedCell S p).isSome := by
  rcases h : getNonConsumedCell S p with - | d
  · exact absurd ⟨hx, hy⟩ (getNonConsumedCell_none h c hc hact)
  · rfl

/-! ### The stable sort is a permutation -/

lemma insertByCmp_perm (cmp : Cell → Cell → Int) (c : Cell) (l : List Cell) :
    List.Perm (insertByCmp cmp c l) (c :: l) := by
  induction l with
  | nil => exact List.Perm.refl _
  | cons d ds ih =>
    by_cases h : cmp d c ≤ 0
    · simp only [insertByCmp, if_pos h]
      exact ((ih.cons d).trans (List.Perm.swap c d ds))
    · simp only [insertByCmp, if_neg h]
      exact List.Perm.refl _

lemma jsSort_foldl_perm (cmp : Cell → Cell → Int) :
    ∀ (l acc : List Cell),
      List.Perm (l.foldl (fun a c => insertByCmp cmp c a) acc) (acc ++ l) := by
  intro l
  induction l with
  | nil => simp
  | cons c cs ih =>
    intro acc
    have h1 : (c :: cs).foldl (fun a c => insertByCmp cmp c a) acc
        = cs.foldl (fun a c => insertByCmp cmp c a) (insertByCmp cmp c acc) := rfl
    rw [h1]
    refine (ih _).trans ?_
    refine (((insertByCmp_perm cmp c acc).append_right cs).trans ?_)
    simpa using (@List.perm_middle _ c acc cs).symm

/-- `slice().sort(cmp)` permutes the list. -/
lemma jsSort_perm (cmp : Cell → Cell → Int) (l : List Cell) :
    List.Perm (jsSort cmp l) l := by
  simpa using jsSort_foldl_perm cmp l []

/-! ### Facts about the slide loop -/

lemma slideAux_id (v : UnitVec) (cells : List Cell) :
    ∀ (fuel : Nat) (cell : Cell),
      (slideAux v cells fuel cell).id = cell.id ∧
      (slideAux v cells fuel cell).value = cell.value ∧
      (slideAux v cells fuel cell).consumedBy = cell.consumedBy := by
  intro fuel
  induction fuel with
  | zero => intro cell; exact ⟨rfl, rfl, rfl⟩
  | succ n ih =>
    intro cell
    simp only [slideAux]
    by_cases h : slideBlocked cells (cell.x + v.x) (cell.y + v.y)
    · rw [if_pos h]; exact ⟨rfl, rfl, rfl⟩
    · rw [if_neg h]; exact ih _

lemma slide_id (v : UnitVec) (cells : List Cell) (cell : Cell) :
    (slide v cells cell).id = cell.id := (slideAux_id v cells _ cell).1

lemma slide_value (v : UnitVec) (cells : List Cell) (cell : Cell) :
    (slide v cells cell).value = cell.value := (slideAux_id v cells _ cell).2.1

lemma slide_consumedBy (v : UnitVec) (cells : List Cell) (cell : Cell) :
    (slide v cells cell).consumedBy = cell.consumedBy :=
  (slideAux_id v cells _ cell).2.2

/-- The slide either does not move, or lands on an in-bounds square that
holds no non-consumed cell. -/
lemma slide_rest (v : UnitVec) (cells : List Cell) (cell : Cell) :
    slide v cells cell = cell ∨
      (InBounds (slide v cells cell) ∧
        getNonConsumedCell cells ⟨(slide v cells cell).x, (slide v cells cell).y⟩ = none) := by
  unfold slide
  generalize slideMeasure v cell = fuel
  induction fuel generalizing cell with
  | zero => exact Or.inl rfl
  | succ n ih =>
    simp only [slideAux]
    by_cases h : slideBlocked cells (cell.x + v.x) (cell.y + v.y)
    · rw [if_pos h]; exact Or.inl rfl
    · rw [if_neg h]
      rcases ih { cell with x := cell.x + v.x, y := cell.y + v.y } with heq | hfree
      · rw [heq]
        simp only [slideBlocked, Bool.or_eq_true, decide_eq_true_eq] at h
        push_neg at h
        obtain ⟨⟨⟨⟨h1, h2⟩, h3⟩, h4⟩, h5⟩ := h
        refine Or.inr ⟨⟨h2, h4, h1, h3⟩, ?_⟩
        exact Option.not_isSome_iff_eq_none.mp h5
      · exact Or.inr hfree

/-- Sliding keeps an in-bounds cell in bounds. -/
lemma slide_inBounds (v : UnitVec) (cells : List Cell) (cell : Cell)
    (h : InBounds cell) : InBounds (slide v cells cell) := by
  rcases slide_rest v cells cell with heq | hfree
  · rw [heq]; exact h
  · exact hfree.1

/-! ### The slack pass

A fold of `clearSlack` over the cells of a board: each step only changes the
position of one cell (identified by its id), moving it along the tilt vector
into squares free of non-consumed cells. -/

lemma activeVal_congr {c d : Cell} (hv : d.value = c.value)
    (hcb : d.consumedBy = c.consumedBy) : activeVal d = activeVal c := by
  simp [activeVal, Cell.isActive, hcb, hv]

lemma isActive_congr {c d : Cell} (hcb : d.consumedBy = c.consumedBy) :
    d.isActive = c.isActive := by simp [Cell.isActive, hcb]

/-- One `clearSlack` step: per-entry field preservation and invariant
preservation. -/
lemma clearSlack_step {v : UnitVec} {S : List Cell} {e : Cell}
    (hids : (S.map Cell.id).Nodup) (he : e ∈ S) :
    ((clearSlack v S e).map Cell.id = S.map Cell.id) ∧
    (∀ c ∈ S, ∃ d ∈ clearSlack v S e,
      d.id = c.id ∧ d.value = c.value ∧ d.consumedBy = c.consumedBy) ∧
    (∀ d ∈ clearSlack v S e, ∃ c ∈ S,
      d.id = c.id ∧ d.value = c.value ∧ d.consumedBy = c.consumedBy) ∧
    (∀ c ∈ S, c.id ≠ e.id → c ∈ clearSlack v S e) ∧
    (ActivesDistinct S → ActivesDistinct (clearSlack v S e)) ∧
    ((∀ c ∈ S, InBounds c) → ∀ d ∈ clearSlack v S e, InBounds d) ∧
    activeSum (clearSlack v S e) = activeSum S := by
  set moved := slide v S e with hmoved
  have hmid : moved.id = e.id := slide_id v S e
  have hmval : moved.value = e.value := slide_value v S e
  have hmcb : moved.consumedBy = e.consumedBy := slide_consumedBy v S e
  have hcs : clearSlack v S e = S.map fun c => if c.id == e.id then moved else c := rfl
  have hf : ∀ c ∈ S,
      ((if c.id == e.id then moved else c).id = c.id ∧
       (if c.id == e.id then moved else c).value = c.value ∧
       (if c.id == e.id then moved else c).consumedBy = c.consumedBy) := by
    intro c hc
    by_cases h : c.id = e.id
    · have hce : c = e := eq_of_mem_of_id_eq hids hc he h
      rw [if_pos (beq_iff_eq.mpr h), hce]
      exact ⟨hmid, hmval, hmcb⟩
    · rw [if_neg (by simpa using h)]
      exact ⟨rfl, rfl, rfl⟩
  refine ⟨?_, ?_, ?_, ?_, ?_, ?_, ?_⟩
  · rw [hcs, List.map_map]
    exact List.map_congr_left fun c hc => (hf c hc).1
  · intro c hc
    refine ⟨if c.id == e.id then moved else c, ?_, (hf c hc).1, (hf c hc).2⟩
    rw [hcs]
    exact List.mem_map_of_mem _ hc
  · intro d hd
    rw [hcs] at hd
    obtain ⟨c, hc, rfl⟩ := List.mem_map.mp hd
    exact ⟨c, hc, (hf c hc).1, (hf c hc).2⟩
  · intro c hc hne
    rw [hcs]
    have : (if c.id == e.id then moved else c) = c := by
      rw [if_neg (by simpa using hne)]
    rw [← this]
    exact List.mem_map_of_mem _ hc
  · intro hdist
    rw [hcs]
    intro c₁ h₁ c₂ h₂ ha₁ ha₂ hx hy
    obtain ⟨d₁, hd₁, rfl⟩ := List.mem_map.mp h₁
    obtain ⟨d₂, hd₂, rfl⟩ := List.mem_map.mp h₂
    by_cases e₁ : d₁.id = e.id <;> by_cases e₂ : d₂.id = e.id
    · have : d₁ = d₂ :=
        eq_of_mem_of_id_eq hids hd₁ hd₂ (e₁.trans e₂.symm)
      rw [this]
    · -- d₁ is the moved cell, d₂ is untouched; they cannot share a position
      have hc₁ : d₁ = e := eq_of_mem_of_id_eq hids hd₁ he e₁
      rw [if_pos (beq_iff_eq.mpr e₁)] at ha₁ hx hy
      rw [if_neg (by simpa using e₂)] at ha₂ hx hy
      have hmact : e.isActive := by
        rw [← hc₁, ← isActive_congr (c := d₁) (d := moved) (by rw [hmcb, hc₁])]
        exact ha₁
      exfalso
      rcases slide_rest v S e with hrest | ⟨-, hfree⟩
      · rw [← hmoved] at hrest
        have : e = d₂ := hdist e he d₂ hd₂ hmact ha₂
          (by rw [← hrest, hx]) (by rw [← hrest, hy])
        exact e₂ (by rw [← this])
      · rw [← hmoved] at hfree
        exact getNonConsumedCell_none hfree d₂ hd₂ ha₂ ⟨hx.symm, hy.symm⟩
    · -- symmetric case
      have hc₂ : d₂ = e := eq_of_mem_of_id_eq hids hd₂ he e₂
      rw [if_pos (beq_iff_eq.mpr e₂)] at ha₂ hx hy
      rw [if_neg (by simpa using e₁)] at ha₁ hx hy
      have hmact : e.isActive := by
        rw [← hc₂, ← isActive_congr (c := d₂) (d := moved) (by rw [hmcb, hc₂])]
        exact ha₂
      exfalso
      rcases slide_rest v S e with hrest | ⟨-, hfree⟩
      · rw [← hmoved] at hrest
        have : e = d₁ := hdist e he d₁ hd₁ hmact ha₁
          (by rw [← hrest, ← hx]) (by rw [← hrest, ← hy])
        exact e₁ (by rw [← this])
      · rw [← hmoved] at hfree
        exact getNonConsumedCell_none hfree d₁ hd₁ ha₁ ⟨hx, hy⟩
    · rw [if_neg (by simpa using e₁)] at ha₁ hx hy ⊢
      rw [if_neg (by simpa using e₂)] at ha₂ hx hy ⊢
      exact hdist d₁ hd₁ d₂ hd₂ ha₁ ha₂ hx hy
  · intro hb d hd
    rw [hcs] at hd
    obtain ⟨c, hc, rfl⟩ := List.mem_map.mp hd
    by_cases h : c.id = e.id
    · rw [if_pos (beq_iff_eq.mpr h)]
      exact slide_inBounds v S e (hb e he)
    · rw [if_neg (by simpa using h)]
      exact hb c hc
  · rw [hcs]
    unfold activeSum
    rw [List.map_map]
    congr 1
    exact List.map_congr_left fun c hc =>
      activeVal_congr (hf c hc).2.1 (hf c hc).2.2

/-- The fold of `clearSlack` over a list of cells drawn from the board. -/
lemma slackPass {v : UnitVec} : ∀ (rest S : List Cell),
    (S.map Cell.id).Nodup →
    (∀ x ∈ rest, x ∈ S) →
    ((rest.map Cell.id).Nodup) →
    ((rest.foldl (fun cells cell => clearSlack v cells cell) S).map Cell.id
        = S.map Cell.id) ∧
    (∀ c ∈ S, ∃ d ∈ rest.foldl (fun cells cell => clearSlack v cells cell) S,
      d.id = c.id ∧ d.value = c.value ∧ d.consumedBy = c.consumedBy) ∧
    (∀ d ∈ rest.foldl (fun cells cell => clearSlack v cells cell) S, ∃ c ∈ S,
      d.id = c.id ∧ d.value = c.value ∧ d.consumedBy = c.consumedBy) ∧
    (ActivesDistinct S →
      ActivesDistinct (rest.foldl (fun cells cell => clearSlack v cells cell) S)) ∧
    ((∀ c ∈ S, InBounds c) →
      ∀ d ∈ rest.foldl (fun cells cell => clearSlack v cells cell) S, InBounds d) ∧
    activeSum (rest.foldl (fun cells cell => clearSlack v cells cell) S)
      = activeSum S := by
  intro rest
  induction rest with
  | nil =>
    intro S hids _ _
    exact ⟨rfl, fun c hc => ⟨c, hc, rfl, rfl, rfl⟩,
      fun d hd => ⟨d, hd, rfl, rfl, rfl⟩, fun h => h, fun h => h, rfl⟩
  | cons e rest ih =>
    intro S hids hsub hrn
    have he : e ∈ S := hsub e (List.mem_cons_self e rest)
    obtain ⟨s1, s2, s3, s4, s5, s6, s7⟩ := clearSlack_step (v := v) hids he
    have hrn' : (rest.map Cell.id).Nodup := (List.nodup_cons.mp hrn).2
    have hnotin : e.id ∉ rest.map Cell.id := (List.nodup_cons.mp hrn).1
    have hsub' : ∀ x ∈ rest, x ∈ clearSlack v S e := by
      intro x hx
      refine s4 x (hsub x (List.mem_cons_of_mem e hx)) ?_
      intro hxe
      exact hnotin (hxe ▸ List.mem_map_of_mem Cell.id hx)
    have hids' : ((clearSlack v S e).map Cell.id).Nodup := by rw [s1]; exact hids
    obtain ⟨t1, t2, t3, t4, t5, t6⟩ := ih (clearSlack v S e) hids' hsub' hrn'
    have hfold : (e :: rest).foldl (fun cells cell => clearSlack v cells cell) S
        = rest.foldl (fun cells cell => clearSlack v cells cell) (clearSlack v S e) := rfl
    rw [hfold]
    refine ⟨t1.trans s1, ?_, ?_, fun h => t4 (s5 h), fun h => t5 (s6 h), t6.trans s7⟩
    · intro c hc
      obtain ⟨d, hd, hd1, hd2, hd3⟩ := s2 c hc
      obtain ⟨d2, hd2m, hd21, hd22, hd23⟩ := t2 d hd
      exact ⟨d2, hd2m, hd21.trans hd1, hd22.trans hd2, hd23.trans hd3⟩
    · intro d hd
      obtain ⟨c, hc, h1, h2, h3⟩ := t3 d hd
      obtain ⟨c2, hc2, h21, h22, h23⟩ := s3 c hc
      exact ⟨c2, hc2, h1.trans h21, h2.trans h22, h3.trans h23⟩

/-! ### The merge pass

A fold of `consumeNeighbour` over the cells of a board.  Each step either
leaves the board unchanged or performs one merge: the wall-ward neighbour of
the processed cell becomes a ghost (`setConsumed`) and the processed cell
doubles and moves onto the neighbour's square (`mergeMoved`). -/

/-- The ghost produced by a merge: the consumed cell with `consumedBy` set
to the consumer's id. -/
def setConsumed (c : Cell) (k : Int) : Cell := { c with consumedBy := some k }

/-- The consumer produced by a merge: value doubled, moved one step along
the tilt vector. -/
def mergeMoved (v : UnitVec) (c : Cell) : Cell :=
  { c with value := c.value * 2, x := c.x + v.x, y := c.y + v.y }

@[simp] lemma setConsumed_id (c : Cell) (k : Int) : (setConsumed c k).id = c.id := rfl
@[simp] lemma setConsumed_x (c : Cell) (k : Int) : (setConsumed c k).x = c.x := rfl
@[simp] lemma setConsumed_y (c : Cell) (k : Int) : (setConsumed c k).y = c.y := rfl
@[simp] lemma setConsumed_value (c : Cell) (k : Int) : (setConsumed c k).value = c.value := rfl
@[simp] lemma setConsumed_consumedBy (c : Cell) (k : Int) :
    (setConsumed c k).consumedBy = some k := rfl
@[simp] lemma mergeMoved_id (v : UnitVec) (c : Cell) : (mergeMoved v c).id = c.id := rfl
@[simp] lemma mergeMoved_x (v : UnitVec) (c : Cell) : (mergeMoved v c).x = c.x + v.x := rfl
@[simp] lemma mergeMoved_y (v : UnitVec) (c : Cell) : (mergeMoved v c).y = c.y + v.y := rfl
@[simp] lemma mergeMoved_value (v : UnitVec) (c : Cell) :
    (mergeMoved v c).value = c.value * 2 := rfl
@[simp] lemma mergeMoved_consumedBy (v : UnitVec) (c : Cell) :
    (mergeMoved v c).consumedBy = c.consumedBy := rfl

lemma setConsumed_not_isActive {c : Cell} {k : Int} (hk : k ≠ 0) :
    ¬ (setConsumed c k).isActive := not_isActive_setConsumed hk

/-- A tilt vector never fixes a position. -/
lemma UnitVec.step_ne (v : UnitVec) {x y : Int}
    (hx : x + v.x = x) (hy : y + v.y = y) : False := by
  rcases v.unit with ⟨h1, h2 | h2⟩ | ⟨h1, h2 | h2⟩ <;> omega

/-- Case analysis on one `consumeNeighbour` step: either the board is
unchanged, or the guards all pass and one merge is performed. -/
lemma consumeNeighbour_eq_or (v : UnitVec) (S : List Cell) (e : Cell) :
    consumeNeighbour v S e = S ∨
    ∃ n, (getNonConsumedCell S e.pos).map Cell.id = some e.id ∧
      getNonConsumedCell S ⟨e.x + v.x, e.y + v.y⟩ = some n ∧
      n.value = e.value ∧
      consumeNeighbour v S e = S.map fun c =>
        if c.id == n.id then { c with consumedBy := some e.id }
        else if c.id == e.id then
          { c with value := c.value * 2, x := e.x + v.x, y := e.y + v.y }
        else c := by
  simp only [consumeNeighbour]
  by_cases h1 : (getNonConsumedCell S e.pos).map Cell.id ≠ some e.id
  · rw [if_pos h1]; exact Or.inl rfl
  · rw [if_neg h1]
    push_neg at h1
    rcases h2 : getNonConsumedCell S ⟨e.x + v.x, e.y + v.y⟩ with - | n
    · exact Or.inl rfl
    · by_cases h3 : n.value ≠ e.value
      · exact Or.inl (if_pos h3)
      · push_neg at h3
        exact Or.inr ⟨n, h1, rfl, h3, if_neg (not_not_intro h3)⟩

/-- The invariant carried through the `consumeNeighbour` fold.  `L` is the
board entering the merge pass, `rest` the cells still to process, `S` the
current accumulator. -/
structure MergeInv (v : UnitVec) (L rest S : List Cell) : Prop where
  idsEq : S.map Cell.id = L.map Cell.id
  restSub : ∀ x ∈ rest, x ∈ L
  restNodup : (rest.map Cell.id).Nodup
  relAll : ∀ c ∈ S, ∃ c₀ ∈ L, c = c₀ ∨
    (∃ k, k ≠ 0 ∧ c₀.isActive ∧ c = setConsumed c₀ k) ∨
    (c₀.isActive ∧ c = mergeMoved v c₀)
  unproc : ∀ x ∈ rest, ∀ c ∈ S, c.id = x.id →
    c = x ∨ ∃ k, k ≠ 0 ∧ c = setConsumed x k
  distinct : ActivesDistinct S
  sumEq : activeSum S = activeSum L
  bnds : (∀ c ∈ L, InBounds c) → ∀ c ∈ S, InBounds c
  ghostLink : (∀ c₀ ∈ L, c₀.consumedBy = none) →
    ∀ c ∈ S, ∀ k, c.consumedBy = some k →
      k ≠ 0 ∧ ∃ d ∈ S, ∃ d₀ ∈ L, d₀.isActive ∧ d = mergeMoved v d₀ ∧
        d.id = k ∧ d.value = 2 * c.value
  ghostInj : (∀ c₀ ∈ L, c₀.consumedBy = none) →
    ∀ c ∈ S, ∀ d ∈ S, ∀ k, c.consumedBy = some k → d.consumedBy = some k → c = d
  ghostsOK : GhostsOK L → GhostsOK S

lemma activeVal_of_active {c : Cell} (h : c.isActive) : activeVal c = c.value := by
  simp [activeVal, h]

lemma activeVal_of_inactive {c : Cell} (h : ¬ c.isActive) : activeVal c = 0 := by
  simp [activeVal, h]

lemma activeSum_perm {S T : List Cell} (h : List.Perm S T) :
    activeSum S = activeSum T := (h.map activeVal).sum_eq

lemma isActive_mergeMoved {v : UnitVec} {c : Cell} :
    (mergeMoved v c).isActive = c.isActive := rfl

/-- One `consumeNeighbour` step preserves the merge invariant. -/
lemma mergeInv_step {v : UnitVec} {L : List Cell}
    (hids : (L.map Cell.id).Nodup) (hnz : ∀ c ∈ L, c.id ≠ 0)
    (hdist : ActivesDistinct L) {rest S : List Cell} {e : Cell}
    (inv : MergeInv v L (e :: rest) S) :
    MergeInv v L rest (consumeNeighbour v S e) := by
  have hrestSub : ∀ x ∈ rest, x ∈ L :=
    fun x hx => inv.restSub x (List.mem_cons_of_mem e hx)
  have hrestNodup : (rest.map Cell.id).Nodup := by
    have := inv.restNodup
    simp only [List.map_cons, List.nodup_cons] at this
    exact this.2
  have hrestUnproc : ∀ x ∈ rest, ∀ c ∈ S, c.id = x.id →
      c = x ∨ ∃ k, k ≠ 0 ∧ c = setConsumed x k :=
    fun x hx => inv.unproc x (List.mem_cons_of_mem e hx)
  rcases consumeNeighbour_eq_or v S e with heqS | ⟨n, hguard, hn, hval, heqS⟩
  · rw [heqS]
    exact ⟨inv.idsEq, hrestSub, hrestNodup, inv.relAll, hrestUnproc, inv.distinct,
      inv.sumEq, inv.bnds, inv.ghostLink, inv.ghostInj, inv.ghostsOK⟩
  -- The merge case.
  have Sids : (S.map Cell.id).Nodup := by rw [inv.idsEq]; exact hids
  obtain ⟨a, ha_eq, haid⟩ := Option.map_eq_some'.mp hguard
  obtain ⟨haS, haact, hax, hay⟩ := getNonConsumedCell_some ha_eq
  have hae : a = e := by
    rcases inv.unproc e (List.mem_cons_self e rest) a haS haid with h | ⟨k, hk, hcons⟩
    · exact h
    · rw [hcons] at haact
      exact absurd haact (not_isActive_setConsumed hk)
  have heS : e ∈ S := hae ▸ haS
  have heact : e.isActive := hae ▸ haact
  have heL : e ∈ L := inv.restSub e (List.mem_cons_self e rest)
  obtain ⟨hnS, hnact, hnx0, hny0⟩ := getNonConsumedCell_some hn
  have hnx : n.x = e.x + v.x := hnx0
  have hny : n.y = e.y + v.y := hny0
  have hne_id : n.id ≠ e.id := by
    intro h
    have hne : n = e := eq_of_mem_of_id_eq Sids hnS heS h
    rw [hne] at hnx hny
    exact UnitVec.step_ne v hnx.symm hny.symm
  have heid_nz : e.id ≠ 0 := hnz e heL
  -- the neighbour is never the moved consumer of an earlier merge
  have hconsumer_not_n : ∀ d₀ ∈ L, d₀.isActive → n = mergeMoved v d₀ → False := by
    intro d₀ hd₀L hd₀act hmm
    have hx0 : d₀.x = e.x := by
      have h := congrArg Cell.x hmm
      simp only [mergeMoved_x] at h
      omega
    have hy0 : d₀.y = e.y := by
      have h := congrArg Cell.y hmm
      simp only [mergeMoved_y] at h
      omega
    have : d₀ = e := hdist d₀ hd₀L e heL hd₀act heact hx0 hy0
    rw [this] at hmm
    exact hne_id (by rw [hmm]; rfl)
  -- the current cell is never the moved consumer of an earlier merge
  have he_not_merged : ∀ d₀ ∈ L, e = mergeMoved v d₀ → False := by
    intro d₀ hd₀L hmm
    have : d₀ = e := eq_of_mem_of_id_eq hids hd₀L heL (by rw [hmm]; rfl)
    rw [this] at hmm
    have hx0 : e.x = e.x + v.x := congrArg Cell.x hmm
    have hy0 : e.y = e.y + v.y := congrArg Cell.y hmm
    exact UnitVec.step_ne v hx0.symm hy0.symm
  have hnL : n ∈ L := by
    obtain ⟨n₀, hn₀L, hcase⟩ := inv.relAll n hnS
    rcases hcase with h | ⟨k, hk, -, h⟩ | ⟨hact₀, h⟩
    · rw [h]; exact hn₀L
    · rw [h] at hnact
      exact absurd hnact (not_isActive_setConsumed hk)
    · exact absurd h (fun h => hconsumer_not_n n₀ hn₀L hact₀ h)
  set f : Cell → Cell := fun c =>
    if c.id == n.id then { c with consumedBy := some e.id }
    else if c.id == e.id then
      { c with value := c.value * 2, x := e.x + v.x, y := e.y + v.y }
    else c with hf
  have hfid : ∀ c : Cell, (f c).id = c.id := by
    intro c
    simp only [hf]
    by_cases h₁ : (c.id == n.id) = true
    · rw [if_pos h₁]
    · rw [if_neg h₁]
      by_cases h₂ : (c.id == e.id) = true
      · rw [if_pos h₂]
      · rw [if_neg h₂]
  have hfc : ∀ c ∈ S, (c = n ∧ f c = setConsumed n e.id) ∨
      (c = e ∧ f c = mergeMoved v e) ∨ (c ≠ n ∧ c ≠ e ∧ f c = c) := by
    intro c hc
    by_cases h₁ : c.id = n.id
    · have hcn : c = n := eq_of_mem_of_id_eq Sids hc hnS h₁
      left
      refine ⟨hcn, ?_⟩
      simp only [hf]
      rw [if_pos (beq_iff_eq.mpr h₁), hcn]
      rfl
    · by_cases h₂ : c.id = e.id
      · have hce : c = e := eq_of_mem_of_id_eq Sids hc heS h₂
        right; left
        refine ⟨hce, ?_⟩
        simp only [hf]
        rw [if_neg (by simpa using h₁), if_pos (beq_iff_eq.mpr h₂), hce]
        rfl
      · right; right
        refine ⟨fun h => h₁ (by rw [h]), fun h => h₂ (by rw [h]), ?_⟩
        simp only [hf]
        rw [if_neg (by simpa using h₁), if_neg (by simpa using h₂)]
  have hfe : f e = mergeMoved v e := by
    rcases hfc e heS with ⟨h, -⟩ | ⟨-, h⟩ | ⟨-, h, -⟩
    · exact absurd h.symm (fun h => hne_id (by rw [h]))
    · exact h
    · exact absurd rfl h
  have hfn : f n = setConsumed n e.id := by
    rcases hfc n hnS with ⟨-, h⟩ | ⟨h, -⟩ | ⟨h, -, -⟩
    · exact h
    · exact absurd h (fun h => hne_id (by rw [h]))
    · exact absurd rfl h
  have hne : e ≠ n := fun h => hne_id (by rw [h])
  rw [heqS]
  refine ⟨?_, hrestSub, hrestNodup, ?_, ?_, ?_, ?_, ?_, ?_, ?_, ?_⟩
  · -- idsEq
    have h1 : (S.map f).map Cell.id = S.map Cell.id := by
      rw [List.map_map]
      exact List.map_congr_left fun c _ => hfid c
    rw [h1, inv.idsEq]
  · -- relAll
    intro c hc
    obtain ⟨d, hdS, rfl⟩ := List.mem_map.mp hc
    rcases hfc d hdS with ⟨hdn, hfd⟩ | ⟨hde, hfd⟩ | ⟨-, -, hfd⟩
    · exact ⟨n, hnL, Or.inr (Or.inl ⟨e.id, heid_nz, hnact, by rw [hfd]⟩)⟩
    · exact ⟨e, heL, Or.inr (Or.inr ⟨heact, by rw [hfd]⟩)⟩
    · rw [hfd]
      exact inv.relAll d hdS
  · -- unproc
    intro x hx c hc hcid
    obtain ⟨d, hdS, rfl⟩ := List.mem_map.mp hc
    have hxid_ne : x.id ≠ e.id := by
      intro h
      have := inv.restNodup
      simp only [List.map_cons, List.nodup_cons] at this
      exact this.1 (h ▸ List.mem_map_of_mem Cell.id hx)
    rcases hfc d hdS with ⟨hdn, hfd⟩ | ⟨hde, hfd⟩ | ⟨-, -, hfd⟩
    · -- the new ghost: its pre-merge cell must be the unprocessed entry x
      rw [hfd] at hcid ⊢
      have hnx_id : n.id = x.id := by simpa using hcid
      rcases hrestUnproc x hx n hnS hnx_id with hnxeq | ⟨k, hk, hcons⟩
      · rw [hnxeq]
        exact Or.inr ⟨e.id, heid_nz, rfl⟩
      · rw [hcons] at hnact
        exact absurd hnact (not_isActive_setConsumed hk)
    · rw [hfd] at hcid
      exact absurd (show x.id = e.id by simpa using hcid.symm) hxid_ne
    · rw [hfd] at hcid ⊢
      exact hrestUnproc x hx d hdS hcid
  · -- distinct
    intro c₁ h₁ c₂ h₂ ha₁ ha₂ hx12 hy12
    obtain ⟨d₁, hd₁S, rfl⟩ := List.mem_map.mp h₁
    obtain ⟨d₂, hd₂S, rfl⟩ := List.mem_map.mp h₂
    have key : ∀ d ∈ S, (f d).isActive →
        (f d = mergeMoved v e) ∨ (f d = d ∧ d ≠ n ∧ d ≠ e) := by
      intro d hdS hact
      rcases hfc d hdS with ⟨-, hfd⟩ | ⟨-, hfd⟩ | ⟨hdn, hde, hfd⟩
      · rw [hfd] at hact
        exact absurd hact (not_isActive_setConsumed heid_nz)
      · exact Or.inl hfd
      · exact Or.inr ⟨hfd, hdn, hde⟩
    rcases key d₁ hd₁S ha₁ with hfd₁ | ⟨hfd₁, hd₁n, -⟩ <;>
      rcases key d₂ hd₂S ha₂ with hfd₂ | ⟨hfd₂, hd₂n, -⟩
    · rw [hfd₁, hfd₂]
    · -- moved consumer vs untouched cell at the same position
      exfalso
      rw [hfd₁] at hx12 hy12
      rw [hfd₂] at hx12 hy12 ha₂
      have hd₂x : d₂.x = n.x := by simp only [mergeMoved_x] at hx12; omega
      have hd₂y : d₂.y = n.y := by simp only [mergeMoved_y] at hy12; omega
      exact hd₂n (inv.distinct d₂ hd₂S n hnS ha₂ hnact hd₂x hd₂y)
    · exfalso
      rw [hfd₂] at hx12 hy12
      rw [hfd₁] at hx12 hy12 ha₁
      have hd₁x : d₁.x = n.x := by simp only [mergeMoved_x] at hx12; omega
      have hd₁y : d₁.y = n.y := by simp only [mergeMoved_y] at hy12; omega
      exact hd₁n (inv.distinct d₁ hd₁S n hnS ha₁ hnact hd₁x hd₁y)
    · rw [hfd₁] at hx12 hy12 ha₁ ⊢
      rw [hfd₂] at hx12 hy12 ha₂ ⊢
      exact inv.distinct d₁ hd₁S d₂ hd₂S ha₁ ha₂ hx12 hy12
  · -- sumEq
    have hSnodup : S.Nodup := Sids.of_map
    have hperm1 : List.Perm S (n :: S.erase n) := List.perm_cons_erase hnS
    have heR : e ∈ S.erase n := (hSnodup.mem_erase_iff).mpr ⟨hne, heS⟩
    have hperm : List.Perm S (n :: e :: (S.erase n).erase e) :=
      hperm1.trans ((List.perm_cons_erase heR).cons n)
    have hRmem : ∀ c ∈ (S.erase n).erase e, c ≠ e ∧ c ≠ n ∧ c ∈ S := by
      intro c hc
      have h1 := (hSnodup.erase n).mem_erase_iff.mp hc
      have h2 := hSnodup.mem_erase_iff.mp h1.2
      exact ⟨h1.1, h2.1, h2.2⟩
    have hmapR : ∀ c ∈ (S.erase n).erase e, f c = c := by
      intro c hc
      obtain ⟨hce, hcn, hcS⟩ := hRmem c hc
      rcases hfc c hcS with ⟨h, -⟩ | ⟨h, -⟩ | ⟨-, -, h⟩
      · exact absurd h hcn
      · exact absurd h hce
      · exact h
    calc activeSum (S.map f)
        = activeSum ((n :: e :: (S.erase n).erase e).map f) :=
          activeSum_perm (hperm.map f)
      _ = activeVal (f n) + (activeVal (f e) +
            activeSum (((S.erase n).erase e).map f)) := by
          simp [activeSum]
      _ = 0 + (e.value * 2 + activeSum ((S.erase n).erase e)) := by
          rw [hfn, hfe, List.map_congr_left hmapR,
            activeVal_of_inactive (setConsumed_not_isActive heid_nz),
            activeVal_of_active
              (show (mergeMoved v e).isActive by rw [isActive_mergeMoved]; exact heact)]
          simp [mergeMoved_value]
      _ = activeVal n + (activeVal e + activeSum ((S.erase n).erase e)) := by
          rw [activeVal_of_active hnact, activeVal_of_active heact]
          omega
      _ = activeSum S := by
          rw [activeSum_perm hperm]
          simp [activeSum]
      _ = activeSum L := inv.sumEq
  · -- bounds
    intro hbL c hc
    obtain ⟨d, hdS, rfl⟩ := List.mem_map.mp hc
    have hbS := inv.bnds hbL
    rcases hfc d hdS with ⟨-, hfd⟩ | ⟨-, hfd⟩ | ⟨-, -, hfd⟩
    · rw [hfd]
      exact hbS n hnS
    · rw [hfd]
      have hbn := hbS n hnS
      refine ⟨?_, ?_, ?_, ?_⟩ <;>
        simp only [mergeMoved] <;>
        simp only [InBounds] at hbn <;> omega
    · rw [hfd]
      exact hbS d hdS
  · -- ghostLink
    intro hclean c hc k hk
    obtain ⟨d, hdS, rfl⟩ := List.mem_map.mp hc
    have heN : e.consumedBy = none := by
      obtain ⟨c₀, hc₀L, hcase⟩ := inv.relAll e heS
      rcases hcase with h | ⟨k', hk', -, h⟩ | ⟨-, h⟩
      · rw [h]; exact hclean c₀ hc₀L
      · rw [h] at heact
        exact absurd heact (not_isActive_setConsumed hk')
      · exact absurd h (fun h => he_not_merged c₀ hc₀L h)
    rcases hfc d hdS with ⟨hdn, hfd⟩ | ⟨hde, hfd⟩ | ⟨hdn, hde, hfd⟩
    · -- the freshly created ghost; its consumer is the freshly moved cell
      rw [hfd] at hk ⊢
      have hkid : k = e.id := by simpa using hk.symm
      refine ⟨hkid ▸ heid_nz, f e, List.mem_map_of_mem f heS, e, heL, heact, ?_, ?_, ?_⟩
      · rw [hfe]
      · rw [hfe, hkid]; rfl
      · rw [hfe]
        simp only [mergeMoved_value, setConsumed_value]
        omega
    · rw [hfd] at hk
      simp only [mergeMoved_consumedBy, heN] at hk
      exact Option.noConfusion hk
    · rw [hfd] at hk ⊢
      obtain ⟨hknz, d', hd'S, d₀, hd₀L, hd₀act, hd'merged, hd'id, hd'val⟩ :=
        inv.ghostLink hclean d hdS k hk
      have hfd2 : f d' = d' := by
        rcases hfc d' hd'S with ⟨h, -⟩ | ⟨h, -⟩ | ⟨-, -, h⟩
        · exact absurd (show n = mergeMoved v d₀ by rw [← h]; exact hd'merged)
            (fun hm => hconsumer_not_n d₀ hd₀L hd₀act hm)
        · exact absurd (show e = mergeMoved v d₀ by rw [← h]; exact hd'merged)
            (fun hm => he_not_merged d₀ hd₀L hm)
        · exact h
      exact ⟨hknz, f d', List.mem_map_of_mem f hd'S, d₀, hd₀L, hd₀act,
        by rw [hfd2]; exact hd'merged, by rw [hfd2]; exact hd'id,
        by rw [hfd2]; exact hd'val⟩
  · -- ghostInj
    intro hclean c₁ h₁ c₂ h₂ k hk₁ hk₂
    obtain ⟨d₁, hd₁S, rfl⟩ := List.mem_map.mp h₁
    obtain ⟨d₂, hd₂S, rfl⟩ := List.mem_map.mp h₂
    have heN : e.consumedBy = none := by
      obtain ⟨c₀, hc₀L, hcase⟩ := inv.relAll e heS
      rcases hcase with h | ⟨k', hk', -, h⟩ | ⟨-, h⟩
      · rw [h]; exact hclean c₀ hc₀L
      · rw [h] at heact
        exact absurd heact (not_isActive_setConsumed hk')
      · exact absurd h (fun h => he_not_merged c₀ hc₀L h)
    have hold : ∀ d ∈ S, (f d).consumedBy = some k → f d ≠ setConsumed n e.id →
        d.consumedBy = some k ∧ f d = d ∧ k ≠ e.id := by
      intro d hdS hdk hdne
      rcases hfc d hdS with ⟨-, hfd⟩ | ⟨hde, hfd⟩ | ⟨-, -, hfd⟩
      · exact absurd hfd hdne
      · rw [hfd] at hdk
        simp only [mergeMoved_consumedBy, heN] at hdk
        exact Option.noConfusion hdk
      · rw [hfd] at hdk ⊢
        refine ⟨hdk, rfl, ?_⟩
        intro hke
        obtain ⟨-, d', hd'S, d₀, hd₀L, hd₀act, hd'merged, hd'id, -⟩ :=
          inv.ghostLink hclean d hdS k hdk
        have : d' = e := eq_of_mem_of_id_eq Sids hd'S heS (by rw [hd'id, hke])
        exact he_not_merged d₀ hd₀L (this ▸ hd'merged)
    by_cases hq₁ : f d₁ = setConsumed n e.id <;> by_cases hq₂ : f d₂ = setConsumed n e.id
    · rw [hq₁, hq₂]
    · -- f d₁ is the new ghost, so k = e.id, but old ghosts never carry e.id
      exfalso
      rw [hq₁] at hk₁
      have hkid : k = e.id := by simpa using hk₁.symm
      exact (hold d₂ hd₂S hk₂ hq₂).2.2 hkid
    · exfalso
      rw [hq₂] at hk₂
      have hkid : k = e.id := by simpa using hk₂.symm
      exact (hold d₁ hd₁S hk₁ hq₁).2.2 hkid
    · obtain ⟨hk₁', hfd₁, -⟩ := hold d₁ hd₁S hk₁ hq₁
      obtain ⟨hk₂', hfd₂, -⟩ := hold d₂ hd₂S hk₂ hq₂
      rw [hfd₁, hfd₂]
      exact inv.ghostInj hclean d₁ hd₁S d₂ hd₂S k hk₁' hk₂'
  · -- ghostsOK
    intro hgL
    have hgS := inv.ghostsOK hgL
    intro c hc k hk
    obtain ⟨d, hdS, rfl⟩ := List.mem_map.mp hc
    rcases hfc d hdS with ⟨-, hfd⟩ | ⟨-, hfd⟩ | ⟨-, -, hfd⟩
    · rw [hfd] at hk
      have hkid : k = e.id := by simpa using hk.symm
      exact ⟨hkid ▸ heid_nz, f e, List.mem_map_of_mem f heS, by rw [hfid, hkid]⟩
    · rw [hfd] at hk
      simp only [mergeMoved_consumedBy] at hk
      obtain ⟨hknz, d', hd'S, hd'id⟩ := hgS e heS k hk
      exact ⟨hknz, f d', List.mem_map_of_mem f hd'S, by rw [hfid, hd'id]⟩
    · rw [hfd] at hk
      obtain ⟨hknz, d', hd'S, hd'id⟩ := hgS d hdS k hk
      exact ⟨hknz, f d', List.mem_map_of_mem f hd'S, by rw [hfid, hd'id]⟩

/-- The `consumeNeighbour` fold preserves the merge invariant. -/
lemma mergeInv_fold {v : UnitVec} {L : List Cell}
    (hids : (L.map Cell.id).Nodup) (hnz : ∀ c ∈ L, c.id ≠ 0)
    (hdist : ActivesDistinct L) :
    ∀ (rest S : List Cell), MergeInv v L rest S →
      MergeInv v L []
        (rest.foldl (fun cells cell => consumeNeighbour v cells cell) S) := by
  intro rest
  induction rest with
  | nil => intro S inv; exact inv
  | cons e rest ih =>
    intro S inv
    exact ih (consumeNeighbour v S e) (mergeInv_step hids hnz hdist inv)

/-- At the start of the merge pass the invariant holds trivially. -/
lemma mergeInv_init {v : UnitVec} {L : List Cell}
    (hids : (L.map Cell.id).Nodup) (hdist : ActivesDistinct L) :
    MergeInv v L L L := by
  refine ⟨rfl, fun x hx => hx, hids, ?_, ?_, hdist, rfl, fun h => h, ?_, ?_, fun h => h⟩
  · exact fun c hc => ⟨c, hc, Or.inl rfl⟩
  · intro x hx c hc hid
    exact Or.inl (eq_of_mem_of_id_eq hids hc hx hid)
  · intro hclean c hc k hk
    rw [hclean c hc] at hk
    exact Option.noConfusion hk
  · intro hclean c hc d hd k hk hk2
    rw [hclean c hc] at hk
    exact Option.noConfusion hk

/-! ### The ghost-position sync -/

/-- Field preservation and invariant preservation for `syncConsumed`. -/
lemma syncConsumed_facts (S : List Cell) :
    ((syncConsumed S).map Cell.id = S.map Cell.id) ∧
    (∀ c ∈ S, ∃ d ∈ syncConsumed S,
      d.id = c.id ∧ d.value = c.value ∧ d.consumedBy = c.consumedBy) ∧
    (∀ d ∈ syncConsumed S, ∃ c ∈ S,
      d.id = c.id ∧ d.value = c.value ∧ d.consumedBy = c.consumedBy) ∧
    (∀ c ∈ S, c.isActive → c ∈ syncConsumed S) ∧
    (ActivesDistinct S → ActivesDistinct (syncConsumed S)) ∧
    ((∀ c ∈ S, InBounds c) → ∀ d ∈ syncConsumed S, InBounds d) ∧
    activeSum (syncConsumed S) = activeSum S := by
  set g : Cell → Cell := fun cell =>
    if jsFalsy cell.consumedBy then cell
    else
      match S.find? (fun other => some other.id == cell.consumedBy) with
      | some other => { cell with x := other.x, y := other.y }
      | none => cell with hg
  have hsync : syncConsumed S = S.map g := rfl
  have hgf : ∀ c : Cell, (g c).id = c.id ∧ (g c).value = c.value ∧
      (g c).consumedBy = c.consumedBy := by
    intro c
    simp only [hg]
    by_cases h : jsFalsy c.consumedBy
    · rw [if_pos h]
      exact ⟨rfl, rfl, rfl⟩
    · rw [if_neg h]
      split
      · exact ⟨rfl, rfl, rfl⟩
      · exact ⟨rfl, rfl, rfl⟩
  have hact : ∀ c : Cell, c.isActive → g c = c := by
    intro c h
    simp only [hg]
    exact if_pos h
  refine ⟨?_, ?_, ?_, ?_, ?_, ?_, ?_⟩
  · rw [hsync, List.map_map]
    exact List.map_congr_left fun c _ => (hgf c).1
  · intro c hc
    exact ⟨g c, by rw [hsync]; exact List.mem_map_of_mem g hc,
      (hgf c).1, (hgf c).2⟩
  · intro d hd
    rw [hsync] at hd
    obtain ⟨c, hc, rfl⟩ := List.mem_map.mp hd
    exact ⟨c, hc, (hgf c).1, (hgf c).2⟩
  · intro c hc hca
    rw [hsync, ← hact c hca]
    exact List.mem_map_of_mem g hc
  · intro hdist
    rw [hsync]
    intro d₁ h₁ d₂ h₂ ha₁ ha₂ hx hy
    obtain ⟨c₁, hc₁, rfl⟩ := List.mem_map.mp h₁
    obtain ⟨c₂, hc₂, rfl⟩ := List.mem_map.mp h₂
    have hca₁ : c₁.isActive := by
      rw [← isActive_congr (hgf c₁).2.2]; exact ha₁
    have hca₂ : c₂.isActive := by
      rw [← isActive_congr (hgf c₂).2.2]; exact ha₂
    rw [hact c₁ hca₁] at hx hy ⊢
    rw [hact c₂ hca₂] at hx hy ⊢
    exact hdist c₁ hc₁ c₂ hc₂ hca₁ hca₂ hx hy
  · intro hb d hd
    rw [hsync] at hd
    obtain ⟨c, hc, rfl⟩ := List.mem_map.mp hd
    simp only [hg]
    by_cases h : jsFalsy c.consumedBy
    · rw [if_pos h]; exact hb c hc
    · rw [if_neg h]
      split
      next other hfind =>
        have hoS : other ∈ S := List.mem_of_find?_eq_some hfind
        have hbo := hb other hoS
        exact ⟨hbo.1, hbo.2.1, hbo.2.2.1, hbo.2.2.2⟩
      next => exact hb c hc
  · rw [hsync]
    unfold activeSum
    rw [List.map_map]
    congr 1
    exact List.map_congr_left fun c _ => activeVal_congr (hgf c).2.1 (hgf c).2.2

/-! ### Transfer lemmas along id, value and consumedBy preservation -/

/-- Transfer of non-zero ids along an equality of id lists. -/
lemma idsNZ_transfer {S T : List Cell} (h : T.map Cell.id = S.map Cell.id)
    (hs : ∀ c ∈ S, c.id ≠ 0) : ∀ c ∈ T, c.id ≠ 0 := by
  intro c hc
  have : c.id ∈ T.map Cell.id := List.mem_map_of_mem Cell.id hc
  rw [h] at this
  obtain ⟨d, hd, he⟩ := List.mem_map.mp this
  exact he ▸ hs d hd

/-- Transfer of `GhostsOK` along both-direction field correspondences. -/
lemma ghostsOK_transfer {S T : List Cell}
    (hTS : ∀ d ∈ T, ∃ c ∈ S, d.id = c.id ∧ d.value = c.value ∧ d.consumedBy = c.consumedBy)
    (hST : ∀ c ∈ S, ∃ d ∈ T, d.id = c.id ∧ d.value = c.value ∧ d.consumedBy = c.consumedBy)
    (hS : GhostsOK S) : GhostsOK T := by
  intro c hc k hk
  obtain ⟨c₀, hc₀, -, -, hcb⟩ := hTS c hc
  rw [hcb] at hk
  obtain ⟨hknz, d₀, hd₀, hid₀⟩ := hS c₀ hc₀ k hk
  obtain ⟨d, hd, hdid, -, -⟩ := hST d₀ hd₀
  exact ⟨hknz, d, hd, by rw [hdid, hid₀]⟩

/-- The specification of the merges of one tilt on a ghost-free input:
every ghost points at a non-zero consumer id, the consumer is an active
cell on the board carrying twice the ghost's value, and distinct ghosts
have distinct consumers. -/
def MergeStructure (T : List Cell) : Prop :=
  (∀ c ∈ T, ∀ k, c.consumedBy = some k →
    k ≠ 0 ∧ ∃ d ∈ T, d.id = k ∧ d.isActive ∧ d.value = 2 * c.value) ∧
  (∀ c ∈ T, ∀ d ∈ T, ∀ k, c.consumedBy = some k → d.consumedBy = some k → c = d)

/-- Transfer of `MergeStructure` along both-direction field
correspondences, given distinct ids on both sides. -/
lemma mergeStructure_transfer {S T : List Cell}
    (hTids : (T.map Cell.id).Nodup)
    (hTS : ∀ d ∈ T, ∃ c ∈ S, d.id = c.id ∧ d.value = c.value ∧ d.consumedBy = c.consumedBy)
    (hST : ∀ c ∈ S, ∃ d ∈ T, d.id = c.id ∧ d.value = c.value ∧ d.consumedBy = c.consumedBy)
    (hS : MergeStructure S) : MergeStructure T := by
  constructor
  · intro c hc k hk
    obtain ⟨c₀, hc₀, -, hval, hcb⟩ := hTS c hc
    rw [hcb] at hk
    obtain ⟨hknz, d₀, hd₀, hid₀, hact₀, hval₀⟩ := hS.1 c₀ hc₀ k hk
    obtain ⟨d, hd, hdid, hdval, hdcb⟩ := hST d₀ hd₀
    refine ⟨hknz, d, hd, by rw [hdid, hid₀], ?_, ?_⟩
    · rw [isActive_congr hdcb]
      exact hact₀
    · rw [hdval, hval₀, hval]
  · intro c hc d hd k hkc hkd
    obtain ⟨c₀, hc₀, hcid, -, hccb⟩ := hTS c hc
    obtain ⟨d₀, hd₀, hdid, -, hdcb⟩ := hTS d hd
    rw [hccb] at hkc
    rw [hdcb] at hkd
    have : c₀ = d₀ := hS.2 c₀ hc₀ d₀ hd₀ k hkc hkd
    exact eq_of_mem_of_id_eq hTids hc hd (by rw [hcid, hdid, this])

/-! ### The main theorem about `tilt` -/

/-- The behaviour of `tilt` on a board with distinct non-zero ids and at
most one non-ghost cell per position: ids are permuted, the
one-active-cell-per-position invariant is preserved, cells stay inside the
grid, the total active value is conserved, ghost bookkeeping stays valid,
and on a ghost-free input the merges form a `MergeStructure`. -/
theorem tilt_main (v : UnitVec) (cells : List Cell)
    (hids : (cells.map Cell.id).Nodup)
    (hnz : ∀ c ∈ cells, c.id ≠ 0)
    (hdist : ActivesDistinct cells) :
    List.Perm ((tilt v cells).map Cell.id) (cells.map Cell.id) ∧
    ActivesDistinct (tilt v cells) ∧
    ((∀ c ∈ cells, InBounds c) → ∀ c ∈ tilt v cells, InBounds c) ∧
    activeSum (tilt v cells) = activeSum cells ∧
    (GhostsOK cells → GhostsOK (tilt v cells)) ∧
    ((∀ c ∈ cells, c.consumedBy = none) → MergeStructure (tilt v cells)) := by
  set sorted := jsSort (compareFromVector v) cells with hsorted
  have hperm : List.Perm sorted cells := jsSort_perm _ cells
  have hsids : (sorted.map Cell.id).Nodup := ((hperm.map Cell.id).nodup_iff).mpr hids
  have hsnz : ∀ c ∈ sorted, c.id ≠ 0 := fun c hc => hnz c (hperm.mem_iff.mp hc)
  have hsdist : ActivesDistinct sorted := by
    intro c hc d hd
    exact hdist c (hperm.mem_iff.mp hc) d (hperm.mem_iff.mp hd)
  have hsbnd : (∀ c ∈ cells, InBounds c) → ∀ c ∈ sorted, InBounds c :=
    fun hb c hc => hb c (hperm.mem_iff.mp hc)
  have hssum : activeSum sorted = activeSum cells := activeSum_perm hperm
  -- first slack pass
  set L := sorted.foldl (fun cells cell => clearSlack v cells cell) sorted with hL
  obtain ⟨p1, p2, p3, p4, p5, p6⟩ :=
    slackPass (v := v) sorted sorted hsids (fun x hx => hx) hsids
  rw [← hL] at p1 p2 p3 p4 p5 p6
  have hLids : (L.map Cell.id).Nodup := by rw [p1]; exact hsids
  have hLnz : ∀ c ∈ L, c.id ≠ 0 := idsNZ_transfer p1 hsnz
  have hLdist : ActivesDistinct L := p4 hsdist
  -- merge pass
  set M := L.foldl (fun cells cell => consumeNeighbour v cells cell) L with hM
  have minv : MergeInv v L [] M :=
    mergeInv_fold hLids hLnz hLdist L L (mergeInv_init hLids hLdist)
  have hMids : (M.map Cell.id).Nodup := by rw [minv.idsEq]; exact hLids
  have hMnz : ∀ c ∈ M, c.id ≠ 0 := idsNZ_transfer minv.idsEq hLnz
  -- second slack pass
  set F := M.foldl (fun cells cell => clearSlack v cells cell) M with hF
  obtain ⟨q1, q2, q3, q4, q5, q6⟩ :=
    slackPass (v := v) M M hMids (fun x hx => hx) hMids
  rw [← hF] at q1 q2 q3 q4 q5 q6
  have hFids : (F.map Cell.id).Nodup := by rw [q1]; exact hMids
  -- ghost-position sync
  obtain ⟨r1, r2, r3, r4, r5, r6, r7⟩ := syncConsumed_facts F
  have htilt : tilt v cells = syncConsumed F := rfl
  have hTids : ((tilt v cells).map Cell.id).Nodup := by
    rw [htilt, r1]; exact hFids
  refine ⟨?_, ?_, ?_, ?_, ?_, ?_⟩
  · rw [htilt, r1, q1, minv.idsEq, p1]
    exact hperm.map Cell.id
  · rw [htilt]
    exact r5 (q4 minv.distinct)
  · intro hb
    rw [htilt]
    exact r6 (q5 (minv.bnds (p5 (hsbnd hb))))
  · rw [htilt, r7, q6, minv.sumEq, p6, hssum]
  · intro hg
    have hgS : GhostsOK sorted := by
      intro c hc k hk
      obtain ⟨hknz, d, hd, hdid⟩ := hg c (hperm.mem_iff.mp hc) k hk
      exact ⟨hknz, d, hperm.mem_iff.mpr hd, hdid⟩
    have hgL : GhostsOK L := ghostsOK_transfer p3 p2 hgS
    have hgM : GhostsOK M := minv.ghostsOK hgL
    have hgF : GhostsOK F := ghostsOK_transfer q3 q2 hgM
    rw [htilt]
    exact ghostsOK_transfer r3 r2 hgF
  · intro hclean
    have hcleanS : ∀ c ∈ sorted, c.consumedBy = none :=
      fun c hc => hclean c (hperm.mem_iff.mp hc)
    have hcleanL : ∀ c ∈ L, c.consumedBy = none := by
      intro c hc
      obtain ⟨c₀, hc₀, -, -, hcb⟩ := p3 c hc
      rw [hcb]
      exact hcleanS c₀ hc₀
    have hmsM : MergeStructure M := by
      constructor
      · intro c hc k hk
        obtain ⟨hknz, d, hd, d₀, hd₀L, hd₀act, hdmm, hdid, hdval⟩ :=
          minv.ghostLink hcleanL c hc k hk
        refine ⟨hknz, d, hd, hdid, ?_, hdval⟩
        rw [hdmm, isActive_mergeMoved]
        exact hd₀act
      · exact minv.ghostInj hcleanL
    have hmsF : MergeStructure F := mergeStructure_transfer hFids q3 q2 hmsM
    rw [htilt]
    exact mergeStructure_transfer (htilt ▸ hTids) r3 r2 hmsF

/-! Sanity checks mirroring the repository's tests for `tilt`. -/

example :
    tilt (get2DVectorByTiltDirection TiltDirection.Up)
      [⟨1, 0, 3, 2, none⟩] = [⟨1, 0, 0, 2, none⟩] := by decide

example :
    tilt (get2DVectorByTiltDirection TiltDirection.Left)
      [⟨1, 0, 0, 2, none⟩, ⟨2, 1, 0, 2, none⟩, ⟨3, 2, 0, 2, none⟩, ⟨4, 3, 0, 2, none⟩] =
      [⟨1, 0, 0, 2, some 2⟩, ⟨2, 0, 0, 4, none⟩, ⟨3, 1, 0, 2, some 4⟩, ⟨4, 1, 0, 4, none⟩] := by
  decide

example :
    tilt (get2DVectorByTiltDirection TiltDirection.Up)
      [⟨1, 0, 0, 2, none⟩, ⟨2, 0, 1, 2, none⟩, ⟨3, 0, 2, 2, none⟩] =
      [⟨1, 0, 0, 2, some 2⟩, ⟨2, 0, 0, 4, none⟩, ⟨3, 0, 1, 2, none⟩] := by decide

example :
    tilt (get2DVectorByTiltDirection TiltDirection.Left)
      [⟨1, 0, 3, 2, none⟩, ⟨2, 1, 3, 2, none⟩, ⟨3, 2, 3, 4, none⟩, ⟨4, 3, 3, 2, none⟩] =
      [⟨1, 0, 3, 2, some 2⟩, ⟨2, 0, 3, 4, none⟩, ⟨3, 1, 3, 4, none⟩, ⟨4, 2, 3, 2, none⟩] := by
  decide

/-! ### The chain of four equal tiles -/

/-- A row of four equal-valued tiles, as in the `tilt` test
"merge tilt between 4 same value cells". -/
def fourChainBoard (w : Int) : List Cell :=
  [⟨1, 0, 0, w, none⟩, ⟨2, 1, 0, w, none⟩, ⟨3, 2, 0, w, none⟩, ⟨4, 3, 0, w, none⟩]

/-- The board after the merge pass of a left tilt of `fourChainBoard`. -/
def fourChainMerged (w : Int) : List Cell :=
  [⟨1, 0, 0, w, some 2⟩, ⟨2, 0, 0, w * 2, none⟩, ⟨3, 2, 0, w, some 4⟩, ⟨4, 2, 0, w * 2, none⟩]

/-- The final board of a left tilt of `fourChainBoard`: two merged pairs,
each survivor of double value at the wall-ward positions `(0,0)` and
`(1,0)`, each ghost synced onto its consumer. -/
def fourChainResult (w : Int) : List Cell :=
  [⟨1, 0, 0, w, some 2⟩, ⟨2, 0, 0, w * 2, none⟩, ⟨3, 1, 0, w, some 4⟩, ⟨4, 1, 0, w * 2, none⟩]

lemma fourChain_eval (w : Int) :
    tilt (get2DVectorByTiltDirection TiltDirection.Left) (fourChainBoard w)
      = fourChainResult w := by
  set v := get2DVectorByTiltDirection TiltDirection.Left with hv
  have hsort : jsSort (compareFromVector v) (fourChainBoard w) = fourChainBoard w := by
    simp [jsSort, insertByCmp, compareFromVector, hv, fourChainBoard,
      get2DVectorByTiltDirection]
  have hslack1 : (fourChainBoard w).foldl
      (fun cells cell => clearSlack v cells cell) (fourChainBoard w)
      = fourChainBoard w := by
    simp [fourChainBoard, hv, get2DVectorByTiltDirection, clearSlack, slide,
      slideAux, slideMeasure, slideBlocked, getNonConsumedCell, jsFalsy, GRID_SIZE]
  have hmerge : (fourChainBoard w).foldl
      (fun cells cell => consumeNeighbour v cells cell) (fourChainBoard w)
      = fourChainMerged w := by
    simp [fourChainBoard, fourChainMerged, hv, get2DVectorByTiltDirection,
      consumeNeighbour, getNonConsumedCell, jsFalsy, Cell.pos, GRID_SIZE]
  have hslack2 : (fourChainMerged w).foldl
      (fun cells cell => clearSlack v cells cell) (fourChainMerged w)
      = fourChainResult w := by
    simp [fourChainMerged, fourChainResult, hv, get2DVectorByTiltDirection,
      clearSlack, slide, slideAux, slideMeasure, slideBlocked, getNonConsumedCell,
      jsFalsy, GRID_SIZE]
  have hsync : syncConsumed (fourChainResult w) = fourChainResult w := by
    simp [fourChainResult, syncConsumed, jsFalsy, List.find?]
  simp only [tilt]
  rw [hsort, hslack1, hmerge, hslack2, hsync]

/-! ### Claim C1 -/

/-- C1: for every tilt of a board (tiles with pairwise-distinct non-zero
ids, at most one non-ghost tile per position, no pre-existing ghosts),
each tile participates in at most one merge: the tilted board's ids stay
pairwise distinct (so a tile is consumed at most once), every ghost's
consumer is an active tile — never itself a ghost — holding exactly twice
the ghost's value, and distinct ghosts have distinct consumers (so a tile
consumes at most once); moreover a left tilt of a row of four equal-valued
tiles produces exactly two merged pairs: survivors of double value at the
wall-ward positions `(0,0)` and `(1,0)`, each with exactly one ghost
consumed by it and synced onto it. -/
theorem C1_each_tile_merges_at_most_once :
    (∀ (v : UnitVec) (cells : List Cell),
      (cells.map Cell.id).Nodup → (∀ c ∈ cells, c.id ≠ 0) →
      ActivesDistinct cells → (∀ c ∈ cells, c.consumedBy = none) →
      ((tilt v cells).map Cell.id).Nodup ∧ MergeStructure (tilt v cells)) ∧
    (∀ w : Int,
      tilt (get2DVectorByTiltDirection TiltDirection.Left) (fourChainBoard w)
        = fourChainResult w) := by
  constructor
  · intro v cells hids hnz hdist hclean
    obtain ⟨hperm, -, -, -, -, hms⟩ := tilt_main v cells hids hnz hdist
    exact ⟨hperm.nodup_iff.mpr hids, hms hclean⟩
  · exact fourChain_eval

/-- Witness for C1 at the repository's own four-chain test board. -/
theorem C1_witness :
    (((fourChainBoard 2).map Cell.id).Nodup ∧
      (∀ c ∈ fourChainBoard 2, c.id ≠ 0) ∧
      ActivesDistinct (fourChainBoard 2) ∧
      (∀ c ∈ fourChainBoard 2, c.consumedBy = none)) ∧
    (((tilt (get2DVectorByTiltDirection TiltDirection.Left)
        (fourChainBoard 2)).map Cell.id).Nodup ∧
      MergeStructure (tilt (get2DVectorByTiltDirection TiltDirection.Left)
        (fourChainBoard 2)) ∧
      tilt (get2DVectorByTiltDirection TiltDirection.Left) (fourChainBoard 2)
        = fourChainResult 2) :=
  ⟨⟨by decide, by decide, by decide, by decide⟩,
    ⟨(C1_each_tile_merges_at_most_once.1
        (get2DVectorByTiltDirection TiltDirection.Left) (fourChainBoard 2)
        (by decide) (by decide) (by decide) (by decide)).1,
      (C1_each_tile_merges_at_most_once.1
        (get2DVectorByTiltDirection TiltDirection.Left) (fourChainBoard 2)
        (by decide) (by decide) (by decide) (by decide)).2,
      C1_each_tile_merges_at_most_once.2 2⟩⟩

/-! ### Claim C2 -/

/-- C2 counterexample: the claim as stated quantifies over every board with
in-grid tiles and at most one non-ghost tile per position.  A board
containing a tile with id `0` satisfies that antecedent, yet tilting it
left merges the id-`0` tile into its neighbour and stores `consumedBy: 0`,
which JavaScript's `!consumedBy` test treats as *not consumed* — leaving
two non-ghost tiles stacked on `(0, 0)`. -/
theorem C2_counterexample :
    (∀ c ∈ ([⟨1, 0, 0, 2, none⟩, ⟨0, 1, 0, 2, none⟩] : List Cell), InBounds c) ∧
    ActivesDistinct [⟨1, 0, 0, 2, none⟩, ⟨0, 1, 0, 2, none⟩] ∧
    ¬ ActivesDistinct (tilt (get2DVectorByTiltDirection TiltDirection.Left)
        [⟨1, 0, 0, 2, none⟩, ⟨0, 1, 0, 2, none⟩]) := by
  refine ⟨by decide, by decide, ?_⟩
  intro h
  have := h ⟨1, 0, 0, 2, some 0⟩ (by decide) ⟨0, 0, 0, 4, none⟩ (by decide)
    (by decide) (by decide) rfl rfl
  exact absurd this (by decide)

/-- C2 (amended): for every direction vector with exactly one non-zero
component in `{-1, 1}` and every board satisfying the Tile data-model
invariants — tiles inside the 4×4 grid, at most one non-ghost tile per
`(x, y)`, pairwise-distinct non-zero ids, and each ghost's `consumedBy`
the non-zero id of a tile on the board — the board returned by `tilt`
again has at most one non-ghost tile per `(x, y)`, every tile inside the
grid, and the same ghost bookkeeping. -/
theorem C2_tilt_preserves_board_invariants (v : UnitVec) (cells : List Cell)
    (hids : (cells.map Cell.id).Nodup) (hnz : ∀ c ∈ cells, c.id ≠ 0)
    (hdist : ActivesDistinct cells) (hbnd : ∀ c ∈ cells, InBounds c)
    (hg : GhostsOK cells) :
    ActivesDistinct (tilt v cells) ∧ (∀ c ∈ tilt v cells, InBounds c) ∧
      GhostsOK (tilt v cells) := by
  obtain ⟨-, h1, h2, -, h3, -⟩ := tilt_main v cells hids hnz hdist
  exact ⟨h1, h2 hbnd, h3 hg⟩

/-- Witness for C2 on a mergeable two-tile board. -/
theorem C2_witness :
    ((([⟨101, 0, 0, 2, none⟩, ⟨102, 3, 0, 2, none⟩] : List Cell).map Cell.id).Nodup ∧
      (∀ c ∈ ([⟨101, 0, 0, 2, none⟩, ⟨102, 3, 0, 2, none⟩] : List Cell), c.id ≠ 0) ∧
      ActivesDistinct [⟨101, 0, 0, 2, none⟩, ⟨102, 3, 0, 2, none⟩] ∧
      (∀ c ∈ ([⟨101, 0, 0, 2, none⟩, ⟨102, 3, 0, 2, none⟩] : List Cell), InBounds c) ∧
      GhostsOK [⟨101, 0, 0, 2, none⟩, ⟨102, 3, 0, 2, none⟩]) ∧
    (ActivesDistinct (tilt (get2DVectorByTiltDirection TiltDirection.Left)
        [⟨101, 0, 0, 2, none⟩, ⟨102, 3, 0, 2, none⟩]) ∧
      (∀ c ∈ tilt (get2DVectorByTiltDirection TiltDirection.Left)
        [⟨101, 0, 0, 2, none⟩, ⟨102, 3, 0, 2, none⟩], InBounds c) ∧
      GhostsOK (tilt (get2DVectorByTiltDirection TiltDirection.Left)
        [⟨101, 0, 0, 2, none⟩, ⟨102, 3, 0, 2, none⟩])) :=
  ⟨⟨by decide, by decide, by decide, by decide, by decide⟩,
    C2_tilt_preserves_board_invariants
      (get2DVectorByTiltDirection TiltDirection.Left)
      [⟨101, 0, 0, 2, none⟩, ⟨102, 3, 0, 2, none⟩]
      (by decide) (by decide) (by decide) (by decide) (by decide)⟩

/-! ### Claim C10 -/

/-- C10 counterexample: on the in-bounds board with tiles of ids `1` and
`0`, a left tilt merges the id-`0` tile into its neighbour; the ghost's
`consumedBy: 0` is falsy in JavaScript, so the ghost still counts as a
non-ghost tile and the total active value grows from 4 to 6. -/
theorem C10_counterexample :
    (∀ c ∈ ([⟨1, 0, 0, 2, none⟩, ⟨0, 1, 0, 2, none⟩] : List Cell), InBounds c) ∧
    activeSum (tilt (get2DVectorByTiltDirection TiltDirection.Left)
        [⟨1, 0, 0, 2, none⟩, ⟨0, 1, 0, 2, none⟩]) ≠
      activeSum [⟨1, 0, 0, 2, none⟩, ⟨0, 1, 0, 2, none⟩] := by
  exact ⟨by decide, by decide⟩

/-- C10 (amended): for every in-bounds board whose tiles have
pairwise-distinct non-zero ids (the Tile data-model invariant) and at most
one non-ghost tile per position, and every direction vector, `tilt`
conserves the total value of the non-ghost tiles: every merge replaces two
value-`v` tiles by one active value-`2v` tile plus one ghost. -/
theorem C10_tilt_conserves_active_value (v : UnitVec) (cells : List Cell)
    (hids : (cells.map Cell.id).Nodup) (hnz : ∀ c ∈ cells, c.id ≠ 0)
    (hdist : ActivesDistinct cells) :
    activeSum (tilt v cells) = activeSum cells :=
  (tilt_main v cells hids hnz hdist).2.2.2.1

/-- Witness for C10 on a mergeable three-tile board. -/
theorem C10_witness :
    ((([⟨101, 0, 1, 4, none⟩, ⟨102, 1, 1, 4, none⟩, ⟨103, 3, 1, 8, none⟩] :
        List Cell).map Cell.id).Nodup ∧
      (∀ c ∈ ([⟨101, 0, 1, 4, none⟩, ⟨102, 1, 1, 4, none⟩, ⟨103, 3, 1, 8, none⟩] :
        List Cell), c.id ≠ 0) ∧
      ActivesDistinct [⟨101, 0, 1, 4, none⟩, ⟨102, 1, 1, 4, none⟩, ⟨103, 3, 1, 8, none⟩]) ∧
    activeSum (tilt (get2DVectorByTiltDirection TiltDirection.Left)
        [⟨101, 0, 1, 4, none⟩, ⟨102, 1, 1, 4, none⟩, ⟨103, 3, 1, 8, none⟩]) =
      activeSum [⟨101, 0, 1, 4, none⟩, ⟨102, 1, 1, 4, none⟩, ⟨103, 3, 1, 8, none⟩] :=
  ⟨⟨by decide, by decide, by decide⟩,
    C10_tilt_conserves_active_value
      (get2DVectorByTiltDirection TiltDirection.Left)
      [⟨101, 0, 1, 4, none⟩, ⟨102, 1, 1, 4, none⟩, ⟨103, 3, 1, 8, none⟩]
      (by decide) (by decide) (by decide)⟩

/-! ## The heuristic reward model (`ai/rewardUtils.ts`)

JavaScript numbers become rationals.  `Math.log2` is modelled by a
fuel-based binary logarithm that agrees with it exactly on the powers of
two (the only tile values the game produces); on other positive inputs it
is the floor of the real logarithm. -/

/-- `Math.log2` on a non-negative integer: the largest exponent `e ≤ 17`
with `2 ^ e ≤ v`.  Exact on the game's tile values, the powers of two with
exponent at most 17 (`TILE_EXPONENTS` ends at 17); elsewhere it is the
floor of the real logarithm. -/
def intLog2 (v : Int) : Nat :=
  (((List.range 18).filter fun e => 2 ^ e ≤ v.toNat).getLast?).getD 0

/-- `Math.log2(v || 1)` as used on grid entries: the JavaScript `||`
replaces the falsy value `0` by `1`. -/
def cellLog (v : Int) : ℚ := (intLog2 (if v = 0 then 1 else v) : ℚ)

/-- `buildGrid` from `ai/rewardUtils.ts`: a 4×4 grid of values (0 for
empty) from the flat cell array; only cells with falsy `consumedBy` are
placed, later cells overwrite earlier ones. -/
def buildGrid (cells : List Cell) : List (List Int) :=
  cells.foldl
    (fun grid cell =>
      if jsFalsy cell.consumedBy then
        grid.set cell.y.toNat ((grid.getD cell.y.toNat []).set cell.x.toNat cell.value)
      else grid)
    (List.replicate GRID_SIZE.toNat (List.replicate GRID_SIZE.toNat 0))

/-- `grid[r][c]` of a built grid. -/
def gridAt (g : List (List Int)) (r c : Nat) : Int := (g.getD r []).getD c 0

/-- One line of `calculateMonotonicity`: the inner loop over the three
adjacent pairs of a row or column, producing `max(inc, dec)`; both sums
include a pair when the values are equal, just as the source's two
non-exclusive `if`s do. -/
def monoLine (a b c d : ℚ) : ℚ :=
  let inc := (if a ≤ b then b - a else 0) + (if b ≤ c then c - b else 0) +
    (if c ≤ d then d - c else 0)
  let dec := (if b ≤ a then a - b else 0) + (if c ≤ b then b - c else 0) +
    (if d ≤ c then c - d else 0)
  max inc dec

/-- `calculateMonotonicity` from `ai/rewardUtils.ts`, with the fixed 4×4
loops unrolled: sum `max(inc, dec)` of `log₂(value || 1)` differences over
the four rows and four columns, then divide by 120. -/
def calculateMonotonicity (cells : List Cell) : ℚ :=
  let grid := buildGrid cells
  let g := fun r c => cellLog (gridAt grid r c)
  let rowScore := fun r => monoLine (g r 0) (g r 1) (g r 2) (g r 3)
  let colScore := fun c => monoLine (g 0 c) (g 1 c) (g 2 c) (g 3 c)
  (rowScore 0 + rowScore 1 + rowScore 2 + rowScore 3 +
    colScore 0 + colScore 1 + colScore 2 + colScore 3) / 120

/-- A checkerboard of eight maximal tiles (value `2¹⁷ = 131072`, the
largest representable exponent) on the cells with `x + y` even. -/
def monotonicityCheckerboard : List Cell :=
  [⟨1, 0, 0, 131072, none⟩, ⟨2, 2, 0, 131072, none⟩,
   ⟨3, 1, 1, 131072, none⟩, ⟨4, 3, 1, 131072, none⟩,
   ⟨5, 0, 2, 131072, none⟩, ⟨6, 2, 2, 131072, none⟩,
   ⟨7, 1, 3, 131072, none⟩, ⟨8, 3, 3, 131072, none⟩]

/-! ### Claim C9 -/

/-- C9: `calculateMonotonicity` does not stay within `[0, 1]`.  On a board
whose tile values are all `2¹⁷` (powers of two with exponent at most 17)
arranged in a checkerboard, every row and column alternates between
`log₂ = 17` and empty, each of the eight lines contributes
`max(inc, dec) = 34`, and the total `272 / 120 = 34/15` exceeds 1: the
normalisation constant 120 is smaller than the real maximum. -/
theorem C9_monotonicity_exceeds_unit_interval :
    (∀ c ∈ monotonicityCheckerboard, c.value = 2 ^ 17) ∧
    calculateMonotonicity monotonicityCheckerboard = 34 / 15 ∧
    1 < calculateMonotonicity monotonicityCheckerboard := by
  have heval : calculateMonotonicity monotonicityCheckerboard = 34 / 15 := by
    have hgrid : buildGrid monotonicityCheckerboard =
        [[131072, 0, 131072, 0], [0, 131072, 0, 131072],
         [131072, 0, 131072, 0], [0, 131072, 0, 131072]] := by decide
    have hv : cellLog 131072 = 17 := by
      have h : intLog2 131072 = 17 := by decide
      simp [cellLog, h]
    have h0 : cellLog 0 = 0 := by
      have h : intLog2 1 = 0 := by decide
      simp [cellLog, h]
    set_option maxRecDepth 4000 in
    set_option maxHeartbeats 2000000 in
    norm_num [calculateMonotonicity, hgrid, gridAt, monoLine, hv, h0]
  exact ⟨by decide, heval, by rw [heval]; norm_num⟩

/-! ## Experience replay (`ai/dqnAgent.ts`)

`Float32Array` state encodings become lists of rationals. -/

/-- `Experience` from `ai/dqnAgent.ts`. -/
structure Experience where
  state : List ℚ
  action : Int
  reward : ℚ
  nextState : List ℚ
  done : Bool
deriving DecidableEq, Repr

/-- `ReplayMemory` from `ai/dqnAgent.ts`: circular buffer of experiences. -/
structure ReplayMemory where
  buffer : List Experience
  index : Nat
  capacity : Nat
deriving DecidableEq, Repr

/-- The `ReplayMemory` constructor: empty buffer, write index 0. -/
def ReplayMemory.new (capacity : Nat) : ReplayMemory :=
  { buffer := [], index := 0, capacity := capacity }

/-- `ReplayMemory.push`: append while below capacity, otherwise overwrite
at the ring index; the index always advances modulo the capacity. -/
def ReplayMemory.push (m : ReplayMemory) (e : Experience) : ReplayMemory :=
  if m.buffer.length < m.capacity then
    { m with buffer := m.buffer ++ [e], index := (m.index + 1) % m.capacity }
  else
    { m with buffer := m.buffer.set m.index e, index := (m.index + 1) % m.capacity }

/-- A sequence of pushes, oldest first. -/
def ReplayMemory.pushAll (m : ReplayMemory) (es : List Experience) : ReplayMemory :=
  es.foldl ReplayMemory.push m

lemma replay_push_length_le (m : ReplayMemory) (e : Experience)
    (h : m.buffer.length ≤ m.capacity) :
    (m.push e).buffer.length ≤ m.capacity := by
  unfold ReplayMemory.push
  split
  · simpa using Nat.succ_le_of_lt (by assumption)
  · simpa using h

lemma replay_pushAll_length_le (es : List Experience) (m : ReplayMemory)
    (h : m.buffer.length ≤ m.capacity) :
    (m.pushAll es).buffer.length ≤ m.capacity := by
  induction es generalizing m with
  | nil => exact h
  | cons e es ih =>
    have hcap : (m.push e).capacity = m.capacity := by
      unfold ReplayMemory.push; split <;> rfl
    have := ih (m.push e) (by rw [hcap]; exact replay_push_length_le m e h)
    rw [hcap] at this
    exact this

/-- Filling an empty memory: as long as at most `capacity` experiences
have been pushed, the buffer holds exactly the pushed list and the ring
index is the push count modulo the capacity. -/
lemma replay_fill (C : Nat) (_hC : 0 < C) (es : List Experience)
    (h : es.length ≤ C) :
    ((ReplayMemory.new C).pushAll es).buffer = es ∧
      ((ReplayMemory.new C).pushAll es).index = es.length % C ∧
      ((ReplayMemory.new C).pushAll es).capacity = C := by
  induction es using List.reverseRecOn with
  | nil => simp [ReplayMemory.pushAll, ReplayMemory.new]
  | append_singleton es' e ih =>
    have hlen' : es'.length < C := by
      have := h; simp at this; omega
    obtain ⟨hb, hi, hc⟩ := ih (le_of_lt hlen')
    have hstep : (ReplayMemory.new C).pushAll (es' ++ [e])
        = ((ReplayMemory.new C).pushAll es').push e := by
      unfold ReplayMemory.pushAll
      rw [List.foldl_append]
      rfl
    rw [hstep]
    unfold ReplayMemory.push
    rw [hb, hi, hc]
    rw [if_pos hlen']
    refine ⟨rfl, ?_, rfl⟩
    simp [Nat.mod_eq_of_lt hlen', List.length_append]

/-! ### Claim C7 -/

/-- C7: a `ReplayMemory` of capacity `C ≥ 1` never holds more than `C`
entries under any sequence of pushes, and after `C + 1` pushes the
first-pushed experience has been overwritten: it is no longer in the
buffer (provided it was not pushed again among the later `C` pushes). -/
theorem C7_replay_memory_ring_buffer :
    (∀ (C : Nat), 1 ≤ C → ∀ es : List Experience,
      ((ReplayMemory.new C).pushAll es).buffer.length ≤ C) ∧
    (∀ (C : Nat), 1 ≤ C → ∀ (e₀ : Experience) (rest : List Experience),
      rest.length = C → e₀ ∉ rest →
      e₀ ∉ ((ReplayMemory.new C).pushAll (e₀ :: rest)).buffer) := by
  constructor
  · intro C _ es
    exact replay_pushAll_length_le es (ReplayMemory.new C) (by simp [ReplayMemory.new])
  · intro C hC1 e₀ rest hlen hnotin
    have hrest : rest ≠ [] := by
      intro h
      rw [h] at hlen
      simp at hlen
      omega
    obtain ⟨ys, z, rfl⟩ := (List.eq_nil_or_concat rest).resolve_left hrest
    simp only [List.concat_eq_append] at hlen hnotin ⊢
    have hys : (e₀ :: ys).length = C := by
      simpa [List.length_append] using hlen
    obtain ⟨hb, hi, hc⟩ := replay_fill C (by omega) (e₀ :: ys) (le_of_eq hys)
    have hstep : (ReplayMemory.new C).pushAll (e₀ :: (ys ++ [z]))
        = ((ReplayMemory.new C).pushAll (e₀ :: ys)).push z := by
      show List.foldl ReplayMemory.push (ReplayMemory.new C) (e₀ :: (ys ++ [z])) = _
      rw [show e₀ :: (ys ++ [z]) = (e₀ :: ys) ++ [z] by simp]
      rw [List.foldl_append]
      rfl
    rw [hstep]
    unfold ReplayMemory.push
    rw [hb, hi, hc, hys]
    rw [if_neg (by omega)]
    have hmod : C % C = 0 := Nat.mod_self C
    rw [hmod]
    simp only [List.set_cons_zero]
    intro hmem
    rcases List.mem_cons.mp hmem with h | h
    · exact hnotin (by subst h; simp)
    · exact hnotin (by simp [h])

/-- Witness for C7 at capacity 2 and three distinct pushes. -/
theorem C7_witness :
    (1 ≤ 2 ∧
      ([⟨[], 1, 0, [], false⟩, ⟨[], 2, 0, [], false⟩] : List Experience).length = 2 ∧
      (⟨[], 0, 0, [], false⟩ : Experience) ∉
        ([⟨[], 1, 0, [], false⟩, ⟨[], 2, 0, [], false⟩] : List Experience)) ∧
    ((ReplayMemory.new 2).pushAll
        [⟨[], 0, 0, [], false⟩, ⟨[], 1, 0, [], false⟩, ⟨[], 2, 0, [], false⟩]).buffer.length ≤ 2 ∧
    (⟨[], 0, 0, [], false⟩ : Experience) ∉
      ((ReplayMemory.new 2).pushAll
        [⟨[], 0, 0, [], false⟩, ⟨[], 1, 0, [], false⟩, ⟨[], 2, 0, [], false⟩]).buffer :=
  ⟨⟨by decide, by decide, by decide⟩,
    C7_replay_memory_ring_buffer.1 2 (by decide)
      [⟨[], 0, 0, [], false⟩, ⟨[], 1, 0, [], false⟩, ⟨[], 2, 0, [], false⟩],
    C7_replay_memory_ring_buffer.2 2 (by decide) ⟨[], 0, 0, [], false⟩
      [⟨[], 1, 0, [], false⟩, ⟨[], 2, 0, [], false⟩] (by decide) (by decide)⟩

/-! ## The epsilon schedule of `DQNAgent.trainStep` (`ai/dqnAgent.ts`)

Only the exploration bookkeeping of `trainStep` is modelled: the tensor
computation never touches `steps` or `epsilon`.  The constructor sets
`epsilon = epsilonStart` and `steps = 0`; each completed `trainStep` ends
with `steps++` followed by
`epsilon = max(epsilonMin, epsilonStart * (1 - steps / epsilonDecaySteps))`. -/

/-- The exploration state of a `DQNAgent`: the three schedule constants
fixed by the constructor and the mutable `steps` / `epsilon` fields. -/
structure AgentExploration where
  epsilonStart : ℚ
  epsilonMin : ℚ
  epsilonDecaySteps : ℚ
  steps : Nat
  epsilon : ℚ
deriving DecidableEq, Repr

/-- The constructor's exploration state. -/
def AgentExploration.init (epsilonStart epsilonMin epsilonDecaySteps : ℚ) :
    AgentExploration :=
  { epsilonStart := epsilonStart, epsilonMin := epsilonMin,
    epsilonDecaySteps := epsilonDecaySteps, steps := 0, epsilon := epsilonStart }

/-- The epsilon update at the end of `trainStep`. -/
def AgentExploration.trainStepEpsilon (a : AgentExploration) : AgentExploration :=
  let steps := a.steps + 1
  { a with
    steps := steps,
    epsilon := max a.epsilonMin (a.epsilonStart * (1 - (steps : ℚ) / a.epsilonDecaySteps)) }

/-- `n` completed `trainStep` calls. -/
def AgentExploration.run (a : AgentExploration) : Nat → AgentExploration
  | 0 => a
  | n + 1 => (a.run n).trainStepEpsilon

lemma agentExploration_run_const (a : AgentExploration) (n : Nat) :
    (a.run n).epsilonStart = a.epsilonStart ∧ (a.run n).epsilonMin = a.epsilonMin ∧
      (a.run n).epsilonDecaySteps = a.epsilonDecaySteps ∧ (a.run n).steps = a.steps + n := by
  induction n with
  | zero => simp [AgentExploration.run]
  | succ n ih =>
    obtain ⟨h1, h2, h3, h4⟩ := ih
    refine ⟨?_, ?_, ?_, ?_⟩ <;>
      · simp [AgentExploration.run, AgentExploration.trainStepEpsilon, h1, h2, h3, h4]
        try omega

/-! ### Claim C8 -/

/-- C8: with `0 ≤ epsilonMin ≤ epsilonStart` and `0 < epsilonDecaySteps`,
the agent's epsilon starts at `epsilonStart`, and after `n` completed
`trainStep` calls equals `max(epsilonMin, epsilonStart·(1 − n/epsilonDecaySteps))`
— the linear schedule — so it never increases from one training step to
the next and never drops below `epsilonMin`. -/
theorem C8_epsilon_linear_decay_with_floor
    (s m d : ℚ) (hm : 0 ≤ m) (hms : m ≤ s) (hd : 0 < d) :
    ((AgentExploration.init s m d).run 0).epsilon = s ∧
    (∀ n : Nat, ((AgentExploration.init s m d).run n).epsilon
      = max m (s * (1 - (n : ℚ) / d))) ∧
    (∀ n : Nat, ((AgentExploration.init s m d).run (n + 1)).epsilon
      ≤ ((AgentExploration.init s m d).run n).epsilon) ∧
    (∀ n : Nat, m ≤ ((AgentExploration.init s m d).run n).epsilon) := by
  have hs : 0 ≤ s := le_trans hm hms
  have hformula : ∀ n : Nat, ((AgentExploration.init s m d).run n).epsilon
      = max m (s * (1 - (n : ℚ) / d)) := by
    intro n
    cases n with
    | zero =>
      simp only [AgentExploration.run, AgentExploration.init]
      rw [Nat.cast_zero, zero_div, sub_zero, mul_one]
      exact (max_eq_right hms).symm
    | succ k =>
      show ((AgentExploration.init s m d).run k).trainStepEpsilon.epsilon = _
      obtain ⟨h1, h2, h3, h4⟩ :=
        agentExploration_run_const (AgentExploration.init s m d) k
      simp only [AgentExploration.trainStepEpsilon]
      rw [h1, h2, h3, h4]
      simp only [AgentExploration.init]
      norm_num
  have hanti : ∀ n : Nat, s * (1 - (((n : Nat) + 1 : Nat) : ℚ) / d) ≤ s * (1 - (n : ℚ) / d) := by
    intro n
    apply mul_le_mul_of_nonneg_left _ hs
    have h1 : (n : ℚ) / d ≤ ((n : ℚ) + 1) / d :=
      (div_le_div_iff_of_pos_right hd).mpr (by linarith)
    push_cast
    linarith
  refine ⟨?_, hformula, ?_, ?_⟩
  · simp [AgentExploration.run, AgentExploration.init]
  · intro n
    rw [hformula n, hformula (n + 1)]
    exact max_le_max (le_refl m) (hanti n)
  · intro n
    rw [hformula n]
    exact le_max_left _ _

/-- Witness for C8 at the repository's default schedule constants
(`epsilonStart = 1`, `epsilonMin = 0.05`, `epsilonDecaySteps = 50000`),
after three training steps. -/
theorem C8_witness :
    (0 ≤ (1 / 20 : ℚ) ∧ (1 / 20 : ℚ) ≤ 1 ∧ (0 : ℚ) < 50000) ∧
    ((AgentExploration.init 1 (1 / 20) 50000).run 0).epsilon = 1 ∧
    (∀ n : Nat, ((AgentExploration.init 1 (1 / 20) 50000).run n).epsilon
      = max (1 / 20) (1 * (1 - (n : ℚ) / 50000))) ∧
    (∀ n : Nat, ((AgentExploration.init 1 (1 / 20) 50000).run (n + 1)).epsilon
      ≤ ((AgentExploration.init 1 (1 / 20) 50000).run n).epsilon) ∧
    (∀ n : Nat, (1 / 20 : ℚ) ≤ ((AgentExploration.init 1 (1 / 20) 50000).run n).epsilon) :=
  ⟨⟨by norm_num, by norm_num, by norm_num⟩,
    C8_epsilon_linear_decay_with_floor 1 (1 / 20) 50000
      (by norm_num) (by norm_num) (by norm_num)⟩

/-! ## Blended action selection (`DQNAgent.selectActionBlended`)

External per-action scores are `Option ℚ`: `none` models a non-finite
JavaScript number (`-Infinity`, the only non-finite value the callers
produce).  `Math.max(...)` over such scores is a fold with `-Infinity` as
unit; `Array.prototype.indexOf` is the first index holding the value, `-1`
when absent.  The network's Q-values and the two `Math.random()` draws are
inputs: the first draw is abstracted to the Boolean `explore`
(`Math.random() < epsilon`), the second to `r ∈ [0, 1)`. -/

/-- `ACTIONS` from `ai/dqnAgent.ts`. -/
def ACTIONS : List TiltDirection :=
  [TiltDirection.Up, TiltDirection.Down, TiltDirection.Left, TiltDirection.Right]

/-- `NUM_ACTIONS = ACTIONS.length`. -/
def NUM_ACTIONS : Nat := ACTIONS.length

/-- `Math.floor` on a rational. -/
def jsFloor (q : ℚ) : Int := ⌊q⌋

/-- Binary `Math.max` with `-Infinity` (`none`) as the absorbing-free unit. -/
def omax : Option ℚ → Option ℚ → Option ℚ
  | none, b => b
  | some x, none => some x
  | some x, some y => some (max x y)

/-- `Math.max(...l)`: `none` (`-Infinity`) for the empty spread. -/
def listOMax (l : List (Option ℚ)) : Option ℚ := l.foldl omax none

/-- `Array.prototype.indexOf`: the first index holding `x`, `-1` if absent. -/
def idxOfFirst {α : Type} [DecidableEq α] (x : α) : List α → Int
  | [] => -1
  | y :: ys =>
    if y = x then 0
    else if idxOfFirst x ys = -1 then -1 else idxOfFirst x ys + 1

/-- `Math.min(...l)` for the non-empty spreads the agent takes. -/
def listMinQ (l : List ℚ) : ℚ := l.foldl min (l.headD 0)

/-- `Math.max(...l)` for the non-empty spreads the agent takes. -/
def listMaxQ (l : List ℚ) : ℚ := l.foldl max (l.headD 0)

/-- `DQNAgent.selectActionBlended` from `ai/dqnAgent.ts`.  `qValues` is
the online network's output for the encoded state (inference itself is
outside the model). -/
def selectActionBlended (qValues : List ℚ) (externalScores : List (Option ℚ))
    (blendWeight : ℚ) (explore : Bool) (r : ℚ) : Int :=
  if explore then
    let validIndices := (List.range externalScores.length).filter
      fun i => (externalScores.getD i none).isSome
    if 0 < validIndices.length then
      ((validIndices.getD (jsFloor (r * validIndices.length)).toNat 0 : Nat) : Int)
    else jsFloor (r * NUM_ACTIONS)
  else
    let qMin := listMinQ qValues
    let qMax := listMaxQ qValues
    let qRange := if qMax - qMin = 0 then 1 else qMax - qMin
    let qNorm := qValues.map fun q => (q - qMin) / qRange
    let finite := externalScores.filterMap id
    if finite.length = 0 then
      match listOMax (qNorm.map some) with
      | none => -1
      | some mx => idxOfFirst mx qNorm
    else
      let extMin := listMinQ finite
      let extMax := listMaxQ finite
      let extRange := if extMax - extMin = 0 then 1 else extMax - extMin
      let extNorm := externalScores.map fun v =>
        match v with
        | some x => (x - extMin) / extRange
        | none => (-1 : ℚ)
      let combined := (List.range qNorm.length).map fun i =>
        match externalScores.getD i none with
        | some _ =>
          some ((1 - blendWeight) * qNorm.getD i 0 + blendWeight * extNorm.getD i 0)
        | none => (none : Option ℚ)
      idxOfFirst (listOMax combined) combined

lemma idxOfFirst_spec {α : Type} [DecidableEq α] (x : α) (l : List α) (h : x ∈ l) :
    ∃ n : Nat, idxOfFirst x l = (n : Int) ∧ n < l.length ∧ ∀ d : α, l.getD n d = x := by
  induction l with
  | nil => cases h
  | cons y ys ih =>
    by_cases hy : y = x
    · exact ⟨0, by simp [idxOfFirst, hy], by simp, fun d => by simpa using hy⟩
    · have hx : x ∈ ys := by
        rcases List.mem_cons.mp h with h1 | h1
        · exact absurd h1.symm hy
        · exact h1
      obtain ⟨n, hn1, hn2, hn3⟩ := ih hx
      refine ⟨n + 1, ?_, by simpa using Nat.succ_lt_succ hn2, fun d => by simpa using hn3 d⟩
      unfold idxOfFirst
      rw [if_neg hy, hn1, if_neg (by omega)]
      push_cast
      ring

lemma getD_map_range {β : Type} (f : Nat → β) (d : β) (m n : Nat) (h : n < m) :
    ((List.range m).map f).getD n d = f n := by
  rw [List.getD_eq_getElem _ _ (by simpa using h)]
  simp

lemma foldl_omax_some (l : List (Option ℚ)) (z : ℚ) :
    (l.foldl omax (some z)).isSome := by
  induction l generalizing z with
  | nil => rfl
  | cons y ys ih =>
    cases y with
    | none => exact ih z
    | some w => exact ih (max z w)

lemma listOMax_isSome_of_mem (l : List (Option ℚ)) (x : ℚ) (h : some x ∈ l) :
    (listOMax l).isSome := by
  induction l with
  | nil => cases h
  | cons y ys ih =>
    cases y with
    | some w => exact foldl_omax_some ys w
    | none =>
      have hx : some x ∈ ys := by
        rcases List.mem_cons.mp h with h1 | h1
        · exact absurd h1 (by simp)
        · exact h1
      exact ih hx

lemma omax_eq_or (a b : Option ℚ) : omax a b = a ∨ omax a b = b := by
  match a, b with
  | none, b => exact Or.inr rfl
  | some x, none => exact Or.inl rfl
  | some x, some y =>
    rcases max_choice x y with h | h
    · exact Or.inl (by simp [omax, h])
    · exact Or.inr (by simp [omax, h])

lemma foldl_omax_eq_or (l : List (Option ℚ)) (a : Option ℚ) :
    l.foldl omax a = a ∨ l.foldl omax a ∈ l := by
  induction l generalizing a with
  | nil => exact Or.inl rfl
  | cons y ys ih =>
    have hstep : (y :: ys).foldl omax a = ys.foldl omax (omax a y) := rfl
    rw [hstep]
    rcases ih (omax a y) with h | h
    · rcases omax_eq_or a y with h2 | h2
      · exact Or.inl (h.trans h2)
      · exact Or.inr (by rw [h, h2]; exact List.mem_cons_self y ys)
    · exact Or.inr (List.mem_cons_of_mem y h)

lemma listOMax_mem_of_isSome (l : List (Option ℚ)) (h : (listOMax l).isSome) :
    listOMax l ∈ l := by
  rcases foldl_omax_eq_or l none with h1 | h1
  · rw [listOMax] at h
    rw [h1] at h
    cases h
  · exact h1

/-! ### Claim C6 -/

/-- C6: whenever the external-score array (length 4, matching the
Q-value array) contains at least one finite entry, `selectActionBlended`
returns an action index in range whose external score is finite — in the
epsilon-random branch because the uniform choice is restricted to the
valid indices, and in the exploitation branch because invalid actions are
forced to `-Infinity` before the argmax; only when all external scores are
non-finite could a non-finite index be returned. -/
theorem C6_blended_selection_returns_valid_action
    (qValues : List ℚ) (externalScores : List (Option ℚ))
    (blendWeight : ℚ) (explore : Bool) (r : ℚ)
    (hq : qValues.length = 4) (he : externalScores.length = 4)
    (hr0 : 0 ≤ r) (hr1 : r < 1)
    (hfin : ∃ s ∈ externalScores, s.isSome) :
    ∃ i : Nat, selectActionBlended qValues externalScores blendWeight explore r = (i : Int) ∧
      i < 4 ∧ (externalScores.getD i none).isSome := by
  obtain ⟨s, hs, hss⟩ := hfin
  obtain ⟨x, rfl⟩ := Option.isSome_iff_exists.mp hss
  obtain ⟨j, hj⟩ := List.mem_iff_get.mp hs
  have hgetj : externalScores.getD j.val none = some x := by
    rw [List.getD_eq_getElem _ _ j.isLt]
    simp only [← List.get_eq_getElem, hj]
  cases explore with
  | true =>
    set V := (List.range externalScores.length).filter
      (fun i => (externalScores.getD i none).isSome) with hV
    have hjV : j.val ∈ V := by
      rw [hV]
      refine List.mem_filter.mpr ⟨List.mem_range.mpr j.isLt, ?_⟩
      rw [hgetj]
      rfl
    have hVpos : 0 < V.length := List.length_pos.mpr (List.ne_nil_of_mem hjV)
    have hunfold : selectActionBlended qValues externalScores blendWeight true r
        = if 0 < V.length then
            ((V.getD (jsFloor (r * V.length)).toNat 0 : Nat) : Int)
          else jsFloor (r * NUM_ACTIONS) := rfl
    rw [hunfold, if_pos hVpos]
    have hf0 : 0 ≤ jsFloor (r * V.length) :=
      Int.floor_nonneg.mpr (mul_nonneg hr0 (by positivity))
    have hflt : jsFloor (r * V.length) < (V.length : Int) := by
      rw [jsFloor, Int.floor_lt]
      push_cast
      exact mul_lt_of_lt_one_left (by exact_mod_cast hVpos) hr1
    have hidx : (jsFloor (r * V.length)).toNat < V.length := by omega
    have hmem : V.getD (jsFloor (r * V.length)).toNat 0 ∈ V := by
      rw [List.getD_eq_getElem _ _ hidx]
      exact List.getElem_mem hidx
    have hmem2 := List.mem_filter.mp hmem
    refine ⟨V.getD (jsFloor (r * V.length)).toNat 0, rfl, ?_, ?_⟩
    · have hlt := List.mem_range.mp hmem2.1
      omega
    · exact hmem2.2
  | false =>
    set qMin := listMinQ qValues with hqMin
    set qMax := listMaxQ qValues with hqMax
    set qRange := if qMax - qMin = 0 then 1 else qMax - qMin with hqR
    set qNorm := qValues.map (fun q => (q - qMin) / qRange) with hqN
    have hqNlen : qNorm.length = 4 := by rw [hqN, List.length_map, hq]
    set finite := externalScores.filterMap id with hfinD
    have hfinne : ¬ finite.length = 0 := by
      have hxf : x ∈ finite := by
        rw [hfinD]
        exact List.mem_filterMap.mpr ⟨some x, hs, rfl⟩
      intro h0
      rw [List.length_eq_zero.mp h0] at hxf
      cases hxf
    set extMin := listMinQ finite with heMin
    set extMax := listMaxQ finite with heMax
    set extRange := if extMax - extMin = 0 then 1 else extMax - extMin with heR
    set extNorm := externalScores.map
      (fun v => match v with | some y => (y - extMin) / extRange | none => (-1 : ℚ))
      with heN
    set combined := (List.range qNorm.length).map (fun i =>
      match externalScores.getD i none with
      | some _ =>
        some ((1 - blendWeight) * qNorm.getD i 0 + blendWeight * extNorm.getD i 0)
      | none => (none : Option ℚ)) with hC
    have hunfold : selectActionBlended qValues externalScores blendWeight false r
        = if finite.length = 0 then
            (match listOMax (qNorm.map some) with
             | none => -1
             | some mx => idxOfFirst mx qNorm)
          else idxOfFirst (listOMax combined) combined := rfl
    rw [hunfold, if_neg hfinne]
    have hClen : combined.length = 4 := by
      rw [hC, List.length_map, List.length_range, hqNlen]
    have hjq : j.val < qNorm.length := by rw [hqNlen]; exact he ▸ j.isLt
    have hCj : combined.getD j.val none
        = some ((1 - blendWeight) * qNorm.getD j.val 0 + blendWeight * extNorm.getD j.val 0) := by
      rw [hC, getD_map_range _ _ _ _ hjq, hgetj]
    have hcmem : some ((1 - blendWeight) * qNorm.getD j.val 0
        + blendWeight * extNorm.getD j.val 0) ∈ combined := by
      have hjc : j.val < combined.length := by rw [hClen]; exact he ▸ j.isLt
      rw [← hCj, List.getD_eq_getElem _ _ hjc]
      exact List.getElem_mem hjc
    have hsome : (listOMax combined).isSome := listOMax_isSome_of_mem combined _ hcmem
    obtain ⟨m, hm⟩ := Option.isSome_iff_exists.mp hsome
    have hmmem : some m ∈ combined := hm ▸ listOMax_mem_of_isSome combined hsome
    obtain ⟨n, hn1, hn2, hn3⟩ := idxOfFirst_spec (some m) combined hmmem
    have hn4 : n < qNorm.length := by
      rw [hqNlen]
      rw [hClen] at hn2
      exact hn2
    refine ⟨n, ?_, ?_, ?_⟩
    · rw [hm]
      exact hn1
    · rw [hClen] at hn2
      exact hn2
    · have hn3v := hn3 none
      rw [hC, getD_map_range _ _ _ _ hn4] at hn3v
      rcases hgd : externalScores.getD n none with _ | y
      · rw [hgd] at hn3v
        simp at hn3v
      · rfl

/-- Witness for C6 in the exploitation branch with two valid external
scores. -/
theorem C6_witness :
    (([0, 0, 0, 0] : List ℚ).length = 4 ∧
      ([none, some 1, none, some 0] : List (Option ℚ)).length = 4 ∧
      (0 : ℚ) ≤ 0 ∧ (0 : ℚ) < 1 ∧
      (∃ s ∈ ([none, some 1, none, some 0] : List (Option ℚ)), s.isSome)) ∧
    (∃ i : Nat,
      selectActionBlended [0, 0, 0, 0] [none, some 1, none, some 0] (3 / 5) false 0
        = (i : Int) ∧ i < 4 ∧
      (([none, some 1, none, some 0] : List (Option ℚ)).getD i none).isSome) :=
  ⟨⟨rfl, rfl, le_refl 0, by norm_num, ⟨some 1, by simp, rfl⟩⟩,
    C6_blended_selection_returns_valid_action [0, 0, 0, 0]
      [none, some 1, none, some 0] (3 / 5) false 0 rfl rfl (le_refl 0)
      (by norm_num) ⟨some 1, by simp, rfl⟩⟩

/-! ## Lookahead search (`ai/lookahead.ts`)

`boardKey` builds a sorted, `|`-joined string of `x,y,value` triples of
the non-ghost cells; two keys are equal exactly when the multisets of
triples are equal, so the key is modelled as that multiset.  The board
heuristic `boardHeuristicValue` mixes `calculateSmoothness`,
`calculateMaxTileBonus` and the seven-weight `REWARD_WEIGHTS`, whose
defining module is not among the repository's files; it enters the search
only as a total function producing a finite number, so it is a parameter
`bhv` of every lookahead definition below and the claims hold for every
instantiation. -/

/-- `LOOKAHEAD_DEPTH` from `ai/lookahead.ts`. -/
def LOOKAHEAD_DEPTH : Int := 6

/-- `LOOKAHEAD_DISCOUNT` from `ai/lookahead.ts`. -/
def LOOKAHEAD_DISCOUNT : ℚ := 9 / 10

/-- `DIRECTION_BIAS` from `ai/lookahead.ts`. -/
def DIRECTION_BIAS : ℚ := 5

/-- `boardKey` from `ai/lookahead.ts` as the multiset of `(x, y, value)`
triples of the cells with falsy `consumedBy`. -/
def boardKey (cells : List Cell) : Multiset (Int × Int × Int) :=
  ((cells.filter fun c => jsFalsy c.consumedBy).map fun c => (c.x, c.y, c.value) :
    List (Int × Int × Int))

/-- `normalizeTiltResult` from `ai/lookahead.ts`: strip consumed cells. -/
def normalizeTiltResult (cells : List Cell) : List Cell :=
  cells.filter fun c => jsFalsy c.consumedBy

/-- The `while (true)` walk of `findChainTail`, with fuel: every iteration
adds one previously unvisited id to `visited`, so `cells.length` fuel is
never exhausted before the loop's own `break`. -/
def findChainTailAux (cells : List Cell) : Nat → Cell → List Int → Cell
  | 0, current, _ => current
  | fuel + 1, current, visited =>
    let targetVal : ℚ := (current.value : ℚ) / 2
    if targetVal < 2 then current
    else
      match cells.find? (fun c =>
        !(visited.contains c.id) && ((c.value : ℚ) == targetVal) &&
        ((c.x - current.x).natAbs + (c.y - current.y).natAbs == 1)) with
      | none => current
      | some next => findChainTailAux cells fuel next (next.id :: visited)

/-- `findChainTail` from `ai/lookahead.ts`: walk the longest descending
chain from the highest-value tile.  The source's non-null assertion on
`cells.find(c => c.value === maxVal)` is the unreachable `none` branch
(the maximum of a non-empty list is attained). -/
def findChainTail (cells : List Cell) : Option Cell :=
  if cells.isEmpty then none
  else
    let maxVal := (cells.map Cell.value).foldl max ((cells.map Cell.value).headD 0)
    match cells.find? fun c => c.value == maxVal with
    | some start => some (findChainTailAux cells cells.length start [start.id])
    | none => none

/-- `computeDirectionBias` from `ai/lookahead.ts`: Left is always
preferred; Up by default, Down instead when the chain tail sits on the
bottom row.  Indexed like `ACTIONS`: Up, Down, Left, Right. -/
def computeDirectionBias (cells : List Cell) : List ℚ :=
  let active := cells.filter fun c => jsFalsy c.consumedBy
  match findChainTail active with
  | some t =>
    if t.y == GRID_SIZE - 1 then [0, DIRECTION_BIAS, DIRECTION_BIAS, 0]
    else [DIRECTION_BIAS, 0, DIRECTION_BIAS, 0]
  | none => [DIRECTION_BIAS, 0, DIRECTION_BIAS, 0]

/-- The recursion of `lookaheadValue`, on fuel (`depth` decreases by one
per level).  The loop over `ACTIONS` is unrolled in order; `best` starts
at `-Infinity` (`none`) and strict improvement is the running maximum, and
the final `best === -Infinity` test is the match on the combined maximum. -/
def lookaheadAux (bhv : List Cell → ℚ) : Nat → List Cell → ℚ
  | 0, cells => bhv cells
  | fuel + 1, cells =>
    let key := boardKey cells
    let next0 := normalizeTiltResult (tilt (get2DVectorByTiltDirection TiltDirection.Up) cells)
    let v0 : Option ℚ := if boardKey next0 = key then none
      else some (bhv next0 + LOOKAHEAD_DISCOUNT * lookaheadAux bhv fuel next0)
    let next1 := normalizeTiltResult (tilt (get2DVectorByTiltDirection TiltDirection.Down) cells)
    let v1 : Option ℚ := if boardKey next1 = key then none
      else some (bhv next1 + LOOKAHEAD_DISCOUNT * lookaheadAux bhv fuel next1)
    let next2 := normalizeTiltResult (tilt (get2DVectorByTiltDirection TiltDirection.Left) cells)
    let v2 : Option ℚ := if boardKey next2 = key then none
      else some (bhv next2 + LOOKAHEAD_DISCOUNT * lookaheadAux bhv fuel next2)
    let next3 := normalizeTiltResult (tilt (get2DVectorByTiltDirection TiltDirection.Right) cells)
    let v3 : Option ℚ := if boardKey next3 = key then none
      else some (bhv next3 + LOOKAHEAD_DISCOUNT * lookaheadAux bhv fuel next3)
    match omax (omax (omax v0 v1) v2) v3 with
    | none => bhv cells
    | some b => b

/-- `lookaheadValue` from `ai/lookahead.ts`: `depth <= 0` bottoms out at
the heuristic, which is the exhausted-fuel case of `lookaheadAux`. -/
def lookaheadValue (bhv : List Cell → ℚ) (cells : List Cell) (depth : Int) : ℚ :=
  lookaheadAux bhv depth.toNat cells

/-- One entry of `computeLookaheadScores`: the body of the source's
`ACTIONS.map((direction, i) => ...)` callback at index `i`. -/
def lookaheadScoreFor (bhv : List Cell → ℚ) (cells : List Cell) (depth : Int)
    (i : Nat) (direction : TiltDirection) : Option ℚ :=
  let normalized := normalizeTiltResult cells
  let key := boardKey normalized
  let bias := computeDirectionBias normalized
  let vector := get2DVectorByTiltDirection direction
  let next := normalizeTiltResult (tilt vector normalized)
  if boardKey next = key then none
  else some (bhv next + LOOKAHEAD_DISCOUNT * lookaheadValue bhv next (depth - 1) +
    bias.getD i 0)

/-- `computeLookaheadScores` from `ai/lookahead.ts`: the map over the
four-element `ACTIONS` array unrolled in order (Up, Down, Left, Right);
`-Infinity` is `none`. -/
def computeLookaheadScores (bhv : List Cell → ℚ) (cells : List Cell) (depth : Int) :
    List (Option ℚ) :=
  [lookaheadScoreFor bhv cells depth 0 TiltDirection.Up,
   lookaheadScoreFor bhv cells depth 1 TiltDirection.Down,
   lookaheadScoreFor bhv cells depth 2 TiltDirection.Left,
   lookaheadScoreFor bhv cells depth 3 TiltDirection.Right]

lemma boardKey_normalize (cells : List Cell) :
    boardKey (normalizeTiltResult cells) = boardKey cells := by
  simp [boardKey, normalizeTiltResult, List.filter_filter]

lemma lookaheadScoreFor_none_iff (bhv : List Cell → ℚ) (cells : List Cell)
    (depth : Int) (i : Nat) (d : TiltDirection) :
    lookaheadScoreFor bhv cells depth i d = none ↔
      boardKey (tilt (get2DVectorByTiltDirection d) (normalizeTiltResult cells))
        = boardKey cells := by
  have hiff : boardKey (normalizeTiltResult
        (tilt (get2DVectorByTiltDirection d) (normalizeTiltResult cells)))
        = boardKey (normalizeTiltResult cells) ↔
      boardKey (tilt (get2DVectorByTiltDirection d) (normalizeTiltResult cells))
        = boardKey cells := by
    rw [boardKey_normalize, boardKey_normalize]
  unfold lookaheadScoreFor
  by_cases hc : boardKey (normalizeTiltResult
      (tilt (get2DVectorByTiltDirection d) (normalizeTiltResult cells)))
      = boardKey (normalizeTiltResult cells)
  · rw [if_pos hc]
    simp only [true_iff]
    exact hiff.mp hc
  · rw [if_neg hc]
    constructor
    · intro h
      cases h
    · intro hr
      exact absurd (hiff.mpr hr) hc

/-! ### Claim C5 -/

/-- C5: for every board and depth, `computeLookaheadScores` produces four
scores, the score of a direction is `-Infinity` (`none`) exactly when
tilting the stripped board in that direction leaves the multiset of
active `(x, y, value)` triples unchanged, and every other direction gets
a finite score; in particular when all four directions are no-ops all
four scores are `-Infinity`.  The statement is uniform in the board
heuristic `bhv`. -/
theorem C5_lookahead_scores_minus_infinity_iff_noop
    (bhv : List Cell → ℚ) (cells : List Cell) (depth : Int) :
    (computeLookaheadScores bhv cells depth).length = 4 ∧
    (∀ i : Fin 4,
      ((computeLookaheadScores bhv cells depth).getD i.val none = none ↔
        boardKey (tilt (get2DVectorByTiltDirection (ACTIONS.getD i.val TiltDirection.Up))
          (normalizeTiltResult cells)) = boardKey cells)) ∧
    ((∀ i : Fin 4,
        boardKey (tilt (get2DVectorByTiltDirection (ACTIONS.getD i.val TiltDirection.Up))
          (normalizeTiltResult cells)) = boardKey cells) →
      computeLookaheadScores bhv cells depth = [none, none, none, none]) := by
  refine ⟨rfl, ?_, ?_⟩
  · intro i
    fin_cases i
    · exact lookaheadScoreFor_none_iff bhv cells depth 0 TiltDirection.Up
    · exact lookaheadScoreFor_none_iff bhv cells depth 1 TiltDirection.Down
    · exact lookaheadScoreFor_none_iff bhv cells depth 2 TiltDirection.Left
    · exact lookaheadScoreFor_none_iff bhv cells depth 3 TiltDirection.Right
  · intro h
    have h0 := (lookaheadScoreFor_none_iff bhv cells depth 0 TiltDirection.Up).mpr
      (h ⟨0, by omega⟩)
    have h1 := (lookaheadScoreFor_none_iff bhv cells depth 1 TiltDirection.Down).mpr
      (h ⟨1, by omega⟩)
    have h2 := (lookaheadScoreFor_none_iff bhv cells depth 2 TiltDirection.Left).mpr
      (h ⟨2, by omega⟩)
    have h3 := (lookaheadScoreFor_none_iff bhv cells depth 3 TiltDirection.Right).mpr
      (h ⟨3, by omega⟩)
    show [lookaheadScoreFor bhv cells depth 0 TiltDirection.Up,
      lookaheadScoreFor bhv cells depth 1 TiltDirection.Down,
      lookaheadScoreFor bhv cells depth 2 TiltDirection.Left,
      lookaheadScoreFor bhv cells depth 3 TiltDirection.Right] = [none, none, none, none]
    rw [h0, h1, h2, h3]

/-- Witness for C5 on the empty board (all four tilts are no-ops) at the
default depth. -/
theorem C5_witness :
    (∀ i : Fin 4,
      boardKey (tilt (get2DVectorByTiltDirection (ACTIONS.getD i.val TiltDirection.Up))
        (normalizeTiltResult ([] : List Cell))) = boardKey ([] : List Cell)) ∧
    computeLookaheadScores (fun _ => 0) [] LOOKAHEAD_DEPTH = [none, none, none, none] :=
  ⟨by decide,
    (C5_lookahead_scores_minus_infinity_iff_noop (fun _ => 0) [] LOOKAHEAD_DEPTH).2.2
      (by decide)⟩

/-! ## Board encoding (`ai/encoding.ts`) and tile spawning (`utils/addNewCell.ts`) -/

/-- `NUM_CHANNELS = TILE_EXPONENTS.length` from `ai/encoding.ts`:
exponents 1..17, one one-hot channel each. -/
def NUM_CHANNELS : Nat := 17

/-- `encodeBoard` from `ai/encoding.ts`: a zero 17×4×4 tensor with a `1`
at `[exp−1][y][x]` for every non-consumed cell (`Math.round(Math.log2 v)`
agrees with `intLog2` on the powers of two the game produces).  Channels
out of range are skipped. -/
def encodeBoard (cells : List Cell) : List (List (List ℚ)) :=
  cells.foldl
    (fun board cell =>
      if jsFalsy cell.consumedBy then
        let channelIndex : Int := (intLog2 cell.value : Int) - 1
        if 0 ≤ channelIndex ∧ channelIndex < (NUM_CHANNELS : Int) then
          board.set channelIndex.toNat
            ((board.getD channelIndex.toNat []).set cell.y.toNat
              (((board.getD channelIndex.toNat []).getD cell.y.toNat []).set cell.x.toNat 1))
        else board
      else board)
    (List.replicate NUM_CHANNELS
      (List.replicate GRID_SIZE.toNat (List.replicate GRID_SIZE.toNat 0)))

/-- `encodeBoardFlat` from `ai/encoding.ts`: channel-major flattening. -/
def encodeBoardFlat (cells : List Cell) : List ℚ :=
  (encodeBoard cells).flatten.flatten

/-- The module-level `coordinates` array of `utils/addNewCell.ts`:
all 16 grid coordinates, row-major. -/
def boardCoordinates : List Coordinate :=
  ((List.range GRID_SIZE.toNat).map fun y =>
    (List.range GRID_SIZE.toNat).map fun x => (⟨(x : Int), (y : Int)⟩ : Coordinate)).flatten

/-- `addNewCell` from `utils/addNewCell.ts`.  The sources of randomness
and the module-level id counter are inputs: `r ∈ [0, 1)` is the
`Math.random()` draw, `newVal` the result of `getInitialCellValue()`,
`newId` the incremented counter.  The `throw` on a full board is `none`. -/
def addNewCell (cells : List Cell) (r : ℚ) (newVal newId : Int) : Option (List Cell) :=
  let emptyCoordinates := boardCoordinates.filter fun p =>
    cells.all fun cell => !(cell.x == p.x) || !(cell.y == p.y)
  if emptyCoordinates.isEmpty then none
  else
    let coordinate := emptyCoordinates.getD (jsFloor (r * emptyCoordinates.length)).toNat ⟨0, 0⟩
    some (cells ++ [⟨newId, coordinate.x, coordinate.y, newVal, none⟩])

/-! ## The training-loop step (`ai/aiWorker.ts`, `runStep`)

The step is modelled as a pure function of the worker state (`cells`,
`score`, `trainStepCount`) and of its external inputs: the chosen action
index (the selection via lookahead scores or the blended policy involves
network inference and is a parameter), the spawn randomness, and the two
functions `isGameOver` and `calculateReward` imported from the reward
module, whose defining file is not among the repository's files — every
theorem below holds for all of them.  The result records the new state
plus the step's observable effects: the `Experience` passed to
`agent.remember`, whether `agent.trainStep()` was invoked, whether
`scheduleStep()` re-armed the loop, and whether `GAME_OVER` was posted. -/

/-- `RewardWeights` (field names as used by `AiArena` and the worker). -/
structure RewardWeights where
  mergeBonus : ℚ
  emptyTiles : ℚ
  monotonicity : ℚ
  cornerBonus : ℚ
  smoothness : ℚ
  maxTileBonus : ℚ
  gameOverPenalty : ℚ
deriving DecidableEq, Repr

/-- `cells.filter((c) => !c.consumedBy)` — the worker's `cleanCells`. -/
def jsClean (cells : List Cell) : List Cell :=
  cells.filter fun c => jsFalsy c.consumedBy

/-- `ACTIONS[actionIndex]` fed to `get2DVectorByTiltDirection`. -/
def actionVector (i : Fin 4) : UnitVec :=
  get2DVectorByTiltDirection (ACTIONS.getD i.val TiltDirection.Up)

/-- `new Map(cleanCells.map((c) => [c.id, c])).get(k)`: a JavaScript `Map`
keeps the last entry per key, so lookup is `find?` on the reversed list. -/
def mapGet (l : List Cell) (k : Int) : Option Cell :=
  l.reverse.find? fun c => c.id == k

/-- The worker's no-op detection: no tile of the tilt result has a truthy
`consumedBy`, and every tile sits at its pre-tilt position (looked up by
id in `cleanCells`). -/
def stepNoOp (cleanCells nextCells : List Cell) : Bool :=
  !(nextCells.any fun c => !(jsFalsy c.consumedBy)) &&
  (nextCells.all fun c =>
    match mapGet cleanCells c.id with
    | some prev => prev.x == c.x && prev.y == c.y
    | none => false)

/-- The worker's score accumulation:
`nextCells.filter((c) => c.consumedBy).reduce((s, c) => s + c.value * 2, prevScore)`. -/
def mergeScore (nextCells : List Cell) (prevScore : Int) : Int :=
  (nextCells.filter fun c => !(jsFalsy c.consumedBy)).foldl
    (fun s c => s + c.value * 2) prevScore

/-- The sum the score accumulation adds: `value * 2` over the tilt
result's ghosts (the tiles consumed by this move's merges). -/
def ghostScoreSum (l : List Cell) : Int :=
  ((l.filter fun c => !(jsFalsy c.consumedBy)).map fun c => c.value * 2).sum

/-- The observable outcome of one `runStep` call. -/
structure StepResult where
  cells : List Cell
  score : Int
  trainStepCount : Nat
  remembered : Option Experience
  trainTriggered : Bool
  rescheduled : Bool
  gameOverReported : Bool

/-- `runStep` from `ai/aiWorker.ts` in the Running state (`tilt` is total
in the model, so the `catch` around it is dead; the `catch` around
`addNewCell` is the `none` fallback keeping `nextCells`). -/
def runStep (gameOver : List Cell → Bool)
    (calcReward : List Cell → List Cell → Int → Int → Bool → RewardWeights → ℚ)
    (w : RewardWeights) (cells : List Cell) (score : Int) (trainStepCount : Nat)
    (actionIndex : Fin 4) (spawnR : ℚ) (spawnVal spawnId : Int) : StepResult :=
  let prevCells := cells
  let prevScore := score
  let vector := actionVector actionIndex
  let cleanCells := jsClean cells
  let nextCells := tilt vector cleanCells
  let noOp := stepNoOp cleanCells nextCells
  let score1 := if noOp then score else mergeScore nextCells prevScore
  let cells1 := if noOp then cells else
    match addNewCell nextCells spawnR spawnVal spawnId with
    | some spawned => spawned
    | none => nextCells
  let done := gameOver cells1
  let reward := calcReward prevCells cells1 prevScore score1 done w
  ⟨cells1, score1, trainStepCount + 1,
    some ⟨encodeBoardFlat prevCells, (actionIndex.val : Int), reward,
      encodeBoardFlat cells1, done⟩,
    true, !done, done⟩

/-- The external inputs of one step. -/
structure StepInput where
  actionIndex : Fin 4
  spawnR : ℚ
  spawnVal : Int
  spawnId : Int

/-- A run of consecutive steps, returning the final board and score. -/
def runEpisode (gameOver : List Cell → Bool)
    (calcReward : List Cell → List Cell → Int → Int → Bool → RewardWeights → ℚ)
    (w : RewardWeights) : List Cell → Int → Nat → List StepInput → List Cell × Int
  | cells, score, _, [] => (cells, score)
  | cells, score, tsc, p :: ps =>
    let R := runStep gameOver calcReward w cells score tsc
      p.actionIndex p.spawnR p.spawnVal p.spawnId
    runEpisode gameOver calcReward w R.cells R.score R.trainStepCount ps

/-- The score a single step adds: `0` for a no-op, otherwise the doubled
values of the tiles the tilt consumed. -/
def stepScoreDelta (cells : List Cell) (actionIndex : Fin 4) : Int :=
  if stepNoOp (jsClean cells) (tilt (actionVector actionIndex) (jsClean cells)) then 0
  else ghostScoreSum (tilt (actionVector actionIndex) (jsClean cells))

/-- The total merge score of an episode: the per-step deltas summed along
the trajectory. -/
def episodeMergeTotal (gameOver : List Cell → Bool)
    (calcReward : List Cell → List Cell → Int → Int → Bool → RewardWeights → ℚ)
    (w : RewardWeights) : List Cell → Int → Nat → List StepInput → Int
  | _, _, _, [] => 0
  | cells, score, tsc, p :: ps =>
    let R := runStep gameOver calcReward w cells score tsc
      p.actionIndex p.spawnR p.spawnVal p.spawnId
    stepScoreDelta cells p.actionIndex +
      episodeMergeTotal gameOver calcReward w R.cells R.score R.trainStepCount ps

lemma mergeScore_eq (l : List Cell) (s : Int) :
    mergeScore l s = s + ghostScoreSum l := by
  unfold mergeScore ghostScoreSum
  generalize l.filter (fun c => !(jsFalsy c.consumedBy)) = L
  induction L generalizing s with
  | nil => simp
  | cons a L ih =>
    simp only [List.foldl_cons, List.map_cons, List.sum_cons]
    rw [ih]
    ring

lemma runStep_score (gameOver : List Cell → Bool)
    (calcReward : List Cell → List Cell → Int → Int → Bool → RewardWeights → ℚ)
    (w : RewardWeights) (cells : List Cell) (score : Int) (tsc : Nat)
    (ai : Fin 4) (r : ℚ) (nv ni : Int) :
    (runStep gameOver calcReward w cells score tsc ai r nv ni).score
      = score + stepScoreDelta cells ai := by
  have hdef : (runStep gameOver calcReward w cells score tsc ai r nv ni).score
      = if stepNoOp (jsClean cells) (tilt (actionVector ai) (jsClean cells)) then score
        else mergeScore (tilt (actionVector ai) (jsClean cells)) score := by rfl
  rw [hdef]
  unfold stepScoreDelta
  by_cases h : stepNoOp (jsClean cells) (tilt (actionVector ai) (jsClean cells)) = true
  · rw [if_pos h, if_pos h]
    ring
  · rw [if_neg h, if_neg h, mergeScore_eq]

lemma runEpisode_score (gameOver : List Cell → Bool)
    (calcReward : List Cell → List Cell → Int → Int → Bool → RewardWeights → ℚ)
    (w : RewardWeights) (steps : List StepInput) :
    ∀ (cells : List Cell) (score : Int) (tsc : Nat),
      (runEpisode gameOver calcReward w cells score tsc steps).2
        = score + episodeMergeTotal gameOver calcReward w cells score tsc steps := by
  induction steps with
  | nil => intro cells score tsc; simp [runEpisode, episodeMergeTotal]
  | cons p ps ih =>
    intro cells score tsc
    have hstep := runStep_score gameOver calcReward w cells score tsc
      p.actionIndex p.spawnR p.spawnVal p.spawnId
    show (runEpisode gameOver calcReward w
        (runStep gameOver calcReward w cells score tsc
          p.actionIndex p.spawnR p.spawnVal p.spawnId).cells
        (runStep gameOver calcReward w cells score tsc
          p.actionIndex p.spawnR p.spawnVal p.spawnId).score
        (runStep gameOver calcReward w cells score tsc
          p.actionIndex p.spawnR p.spawnVal p.spawnId).trainStepCount ps).2
      = score + (stepScoreDelta cells p.actionIndex +
        episodeMergeTotal gameOver calcReward w
          (runStep gameOver calcReward w cells score tsc
            p.actionIndex p.spawnR p.spawnVal p.spawnId).cells
          (runStep gameOver calcReward w cells score tsc
            p.actionIndex p.spawnR p.spawnVal p.spawnId).score
          (runStep gameOver calcReward w cells score tsc
            p.actionIndex p.spawnR p.spawnVal p.spawnId).trainStepCount ps)
    rw [ih]
    nth_rewrite 1 [hstep]
    ring

lemma jsClean_invariants (cells : List Cell) (hids : IdsOK cells)
    (hdist : ActivesDistinct cells) (hg : GhostsOK cells) :
    ((jsClean cells).map Cell.id).Nodup ∧ (∀ c ∈ jsClean cells, c.id ≠ 0) ∧
      ActivesDistinct (jsClean cells) ∧ (∀ c ∈ jsClean cells, c.consumedBy = none) := by
  refine ⟨?_, ?_, ?_, ?_⟩
  · exact hids.1.sublist (List.Sublist.map Cell.id (List.filter_sublist cells))
  · intro c hc
    exact hids.2 c (List.mem_of_mem_filter hc)
  · intro c hc d hd hca hda hx hy
    exact hdist c (List.mem_of_mem_filter hc) d (List.mem_of_mem_filter hd) hca hda hx hy
  · intro c hc
    have hf := (List.mem_filter.mp hc).2
    rcases hcb : c.consumedBy with _ | k
    · rfl
    · exfalso
      have hk0 : k = 0 := by
        rw [hcb] at hf
        simpa [jsFalsy] using hf
      exact (hg c (List.mem_of_mem_filter hc) k hcb).1 hk0

/-- A trivial game-over predicate for concrete instantiations; the claims
hold for every predicate. -/
def constFalseGameOver : List Cell → Bool := fun _ => false

/-- A trivial reward function for concrete instantiations; the claims
hold for every reward function. -/
def zeroReward : List Cell → List Cell → Int → Int → Bool → RewardWeights → ℚ :=
  fun _ _ _ _ _ _ => 0

/-- A concrete weight record for instantiations. -/
def zeroWeights : RewardWeights := ⟨0, 0, 0, 0, 0, 0, 0⟩

/-! ### Claim C3 -/

/-- C3 counterexample: a Running-state step on the single tile at
`(0, 0)` tilted Left (action index 2) is a no-op — the state is unchanged
— yet the worker still records an `Experience` into replay memory and
still invokes `trainStep`: the source runs `agent.remember` and
`agent.trainStep()` unconditionally after the no-op check, which guards
only the score/spawn mutation. -/
theorem C3_counterexample :
    stepNoOp (jsClean [⟨101, 0, 0, 2, none⟩])
      (tilt (actionVector 2) (jsClean [⟨101, 0, 0, 2, none⟩])) = true ∧
    (runStep constFalseGameOver zeroReward zeroWeights
      [⟨101, 0, 0, 2, none⟩] 0 0 2 0 2 102).cells = [⟨101, 0, 0, 2, none⟩] ∧
    (runStep constFalseGameOver zeroReward zeroWeights
      [⟨101, 0, 0, 2, none⟩] 0 0 2 0 2 102).score = 0 ∧
    (runStep constFalseGameOver zeroReward zeroWeights
      [⟨101, 0, 0, 2, none⟩] 0 0 2 0 2 102).remembered.isSome = true ∧
    (runStep constFalseGameOver zeroReward zeroWeights
      [⟨101, 0, 0, 2, none⟩] 0 0 2 0 2 102).trainTriggered = true := by
  exact ⟨by decide, by decide, by decide, by decide, by decide⟩

/-- C3 (amended): on a no-op step the game state (cells and score) is
indeed left unchanged and the loop reschedules exactly when the (possibly
unchanged) board is not game over; but an `Experience` is still recorded
and a training step is still triggered — for every game-over predicate
and reward function. -/
theorem C3_noop_step_records_experience_and_trains
    (gameOver : List Cell → Bool)
    (calcReward : List Cell → List Cell → Int → Int → Bool → RewardWeights → ℚ)
    (w : RewardWeights) (cells : List Cell) (score : Int) (tsc : Nat)
    (ai : Fin 4) (r : ℚ) (nv ni : Int)
    (h : stepNoOp (jsClean cells) (tilt (actionVector ai) (jsClean cells)) = true) :
    (runStep gameOver calcReward w cells score tsc ai r nv ni).cells = cells ∧
    (runStep gameOver calcReward w cells score tsc ai r nv ni).score = score ∧
    (runStep gameOver calcReward w cells score tsc ai r nv ni).remembered.isSome = true ∧
    (runStep gameOver calcReward w cells score tsc ai r nv ni).trainTriggered = true ∧
    (runStep gameOver calcReward w cells score tsc ai r nv ni).rescheduled
      = !(gameOver cells) ∧
    (runStep gameOver calcReward w cells score tsc ai r nv ni).gameOverReported
      = gameOver cells := by
  have hrs : runStep gameOver calcReward w cells score tsc ai r nv ni
      = ⟨cells, score, tsc + 1,
          some ⟨encodeBoardFlat cells, (ai.val : Int),
            calcReward cells cells score score (gameOver cells) w,
            encodeBoardFlat cells, gameOver cells⟩,
          true, !(gameOver cells), gameOver cells⟩ := by
    simp only [runStep]
    rw [h]
    simp
  refine ⟨?_, ?_, ?_, ?_, ?_, ?_⟩ <;> (rw [hrs]; try rfl)

/-- Witness for C3 on the single tile at `(3, 0)` tilted Right. -/
theorem C3_witness :
    stepNoOp (jsClean [⟨101, 3, 0, 2, none⟩])
      (tilt (actionVector 3) (jsClean [⟨101, 3, 0, 2, none⟩])) = true ∧
    ((runStep constFalseGameOver zeroReward zeroWeights
        [⟨101, 3, 0, 2, none⟩] 0 0 3 0 2 102).cells = [⟨101, 3, 0, 2, none⟩] ∧
      (runStep constFalseGameOver zeroReward zeroWeights
        [⟨101, 3, 0, 2, none⟩] 0 0 3 0 2 102).score = 0 ∧
      (runStep constFalseGameOver zeroReward zeroWeights
        [⟨101, 3, 0, 2, none⟩] 0 0 3 0 2 102).remembered.isSome = true ∧
      (runStep constFalseGameOver zeroReward zeroWeights
        [⟨101, 3, 0, 2, none⟩] 0 0 3 0 2 102).trainTriggered = true ∧
      (runStep constFalseGameOver zeroReward zeroWeights
        [⟨101, 3, 0, 2, none⟩] 0 0 3 0 2 102).rescheduled
        = !(constFalseGameOver [⟨101, 3, 0, 2, none⟩]) ∧
      (runStep constFalseGameOver zeroReward zeroWeights
        [⟨101, 3, 0, 2, none⟩] 0 0 3 0 2 102).gameOverReported
        = constFalseGameOver [⟨101, 3, 0, 2, none⟩]) :=
  ⟨by decide,
    C3_noop_step_records_experience_and_trains constFalseGameOver zeroReward
      zeroWeights [⟨101, 3, 0, 2, none⟩] 0 0 3 0 2 102 (by decide)⟩

/-! ### Claim C4 -/

/-- C4: on a non-no-op step the score increases by exactly the sum of
`value × 2` over the tiles consumed by the tilt's merges — each merge's
surviving tile holds exactly twice its ghost's value (`MergeStructure`,
under the Tile data-model invariants), so each merge contributes its
post-merge doubled value and distinct merges have distinct survivors; and
over an episode the final (game-over-reported) score is the initial score
plus the per-step merge sums accumulated along the trajectory. -/
theorem C4_score_accumulates_doubled_merge_values :
    (∀ (gameOver : List Cell → Bool)
       (calcReward : List Cell → List Cell → Int → Int → Bool → RewardWeights → ℚ)
       (w : RewardWeights) (cells : List Cell) (score : Int) (tsc : Nat)
       (ai : Fin 4) (r : ℚ) (nv ni : Int),
      stepNoOp (jsClean cells) (tilt (actionVector ai) (jsClean cells)) = false →
      (runStep gameOver calcReward w cells score tsc ai r nv ni).score
        = score + ghostScoreSum (tilt (actionVector ai) (jsClean cells))) ∧
    (∀ cells : List Cell, IdsOK cells → ActivesDistinct cells → GhostsOK cells →
      ∀ ai : Fin 4, MergeStructure (tilt (actionVector ai) (jsClean cells))) ∧
    (∀ (gameOver : List Cell → Bool)
       (calcReward : List Cell → List Cell → Int → Int → Bool → RewardWeights → ℚ)
       (w : RewardWeights) (steps : List StepInput) (cells : List Cell)
       (score : Int) (tsc : Nat),
      (runEpisode gameOver calcReward w cells score tsc steps).2
        = score + episodeMergeTotal gameOver calcReward w cells score tsc steps) := by
  refine ⟨?_, ?_, ?_⟩
  · intro gameOver calcReward w cells score tsc ai r nv ni h
    rw [runStep_score]
    unfold stepScoreDelta
    rw [h]
    simp
  · intro cells hids hdist hg ai
    obtain ⟨h1, h2, h3, h4⟩ := jsClean_invariants cells hids hdist hg
    exact (tilt_main (actionVector ai) (jsClean cells) h1 h2 h3).2.2.2.2.2 h4
  · intro gameOver calcReward w steps cells score tsc
    exact runEpisode_score gameOver calcReward w steps cells score tsc

/-- Witness for C4 on a merging two-tile board tilted Left. -/
theorem C4_witness :
    (stepNoOp (jsClean [⟨101, 0, 0, 2, none⟩, ⟨102, 1, 0, 2, none⟩])
        (tilt (actionVector 2)
          (jsClean [⟨101, 0, 0, 2, none⟩, ⟨102, 1, 0, 2, none⟩])) = false ∧
      IdsOK [⟨101, 0, 0, 2, none⟩, ⟨102, 1, 0, 2, none⟩] ∧
      ActivesDistinct [⟨101, 0, 0, 2, none⟩, ⟨102, 1, 0, 2, none⟩] ∧
      GhostsOK [⟨101, 0, 0, 2, none⟩, ⟨102, 1, 0, 2, none⟩]) ∧
    ((runStep constFalseGameOver zeroReward zeroWeights
        [⟨101, 0, 0, 2, none⟩, ⟨102, 1, 0, 2, none⟩] 0 0 2 0 2 200).score
        = 0 + ghostScoreSum (tilt (actionVector 2)
            (jsClean [⟨101, 0, 0, 2, none⟩, ⟨102, 1, 0, 2, none⟩])) ∧
      MergeStructure (tilt (actionVector 2)
        (jsClean [⟨101, 0, 0, 2, none⟩, ⟨102, 1, 0, 2, none⟩])) ∧
      (runEpisode constFalseGameOver zeroReward zeroWeights
          [⟨101, 0, 0, 2, none⟩, ⟨102, 1, 0, 2, none⟩] 0 0 []).2
        = 0 + episodeMergeTotal constFalseGameOver zeroReward zeroWeights
            [⟨101, 0, 0, 2, none⟩, ⟨102, 1, 0, 2, none⟩] 0 0 []) :=
  ⟨⟨by decide, ⟨by decide, by decide⟩, by decide, by decide⟩,
    C4_score_accumulates_doubled_merge_values.1 constFalseGameOver zeroReward
      zeroWeights [⟨101, 0, 0, 2, none⟩, ⟨102, 1, 0, 2, none⟩] 0 0 2 0 2 200
      (by decide),
    C4_score_accumulates_doubled_merge_values.2.1
      [⟨101, 0, 0, 2, none⟩, ⟨102, 1, 0, 2, none⟩] ⟨by decide, by decide⟩
      (by decide) (by decide) 2,
    C4_score_accumulates_doubled_merge_values.2.2 constFalseGameOver zeroReward
      zeroWeights [] [⟨101, 0, 0, 2, none⟩, ⟨102, 1, 0, 2, none⟩] 0 0⟩

end Game2048
